import Mathlib

/-!
# licenser: bigram Dice coefficient and ranking

A shallow embedding of `licenselib/lib.go` (package `licenselib`):
`bigrams`, `diceCoefficient`, `matchSorter` and `Reader`, together with the
pieces of the Go language they rest on (strings as byte sequences ranged over
rune by rune, maps, IEEE-754 binary64 arithmetic).
-/

namespace Licenser

/-! ## Go strings and `for i, c := range s` -/

/-- A Go string is an immutable sequence of bytes. -/
abbrev GoString : Type := List UInt8

/-- A Go `rune` (an `int32`); the values a `range` loop yields lie in `0 .. 0x10FFFF`. -/
abbrev rune : Type := Nat

def runeError : rune := 0xFFFD
def maxRune : rune := 0x10FFFF
def runeSelf : Nat := 0x80
def surrogateMin : rune := 0xD800
def surrogateMax : rune := 0xDFFF
def t2 : Nat := 0xC0
def t3 : Nat := 0xE0
def t4 : Nat := 0xF0
def t5 : Nat := 0xF8
def maskx : Nat := 0x3F
def mask2 : Nat := 0x1F
def mask3 : Nat := 0x0F
def mask4 : Nat := 0x07
def rune1Max : rune := 0x7F
def rune2Max : rune := 0x7FF
def rune3Max : rune := 0xFFFF
def locb : Nat := 0x80
def hicb : Nat := 0xBF

/-- Continuation byte test `locb <= b && b <= hicb`. -/
def isCont (b : UInt8) : Bool := decide (locb ≤ b.toNat) && decide (b.toNat ≤ hicb)

/-- The Go runtime's `decoderune`, applied to the bytes from the current position on:
the decoded rune and the number of bytes it occupies. Every ill-formed or truncated
sequence decodes to `runeError` of width one. -/
def decoderune (s : GoString) : rune × Nat :=
  match s with
  | [] => (runeError, 1)
  | b0 :: rest =>
    if t2 ≤ b0.toNat ∧ b0.toNat < t3 then
      match rest with
      | b1 :: _ =>
        if isCont b1 then
          let r := ((b0.toNat &&& mask2) <<< 6) ||| (b1.toNat &&& maskx)
          if rune1Max < r then (r, 2) else (runeError, 1)
        else (runeError, 1)
      | _ => (runeError, 1)
    else if t3 ≤ b0.toNat ∧ b0.toNat < t4 then
      match rest with
      | b1 :: b2 :: _ =>
        if isCont b1 && isCont b2 then
          let r := ((b0.toNat &&& mask3) <<< 12) ||| ((b1.toNat &&& maskx) <<< 6)
            ||| (b2.toNat &&& maskx)
          if rune2Max < r ∧ ¬ (surrogateMin ≤ r ∧ r ≤ surrogateMax) then (r, 3)
          else (runeError, 1)
        else (runeError, 1)
      | _ => (runeError, 1)
    else if t4 ≤ b0.toNat ∧ b0.toNat < t5 then
      match rest with
      | b1 :: b2 :: b3 :: _ =>
        if isCont b1 && isCont b2 && isCont b3 then
          let r := ((b0.toNat &&& mask4) <<< 18) ||| ((b1.toNat &&& maskx) <<< 12)
            ||| ((b2.toNat &&& maskx) <<< 6) ||| (b3.toNat &&& maskx)
          if rune3Max < r ∧ r ≤ maxRune then (r, 4) else (runeError, 1)
        else (runeError, 1)
      | _ => (runeError, 1)
    else (runeError, 1)

/-- One step of a `range` loop over a string: bytes below `runeSelf` are taken as they
are, anything else goes through `decoderune`. -/
def nextRune (s : GoString) : rune × Nat :=
  match s with
  | [] => (runeError, 1)
  | b0 :: _ => if b0.toNat < runeSelf then (b0.toNat, 1) else decoderune s

/-- The iterations of `for i, c := range s` from byte offset `i` on, `rest` being the
bytes not yet consumed: the pairs `(i, c)` of byte offset and rune, in order. Each
iteration consumes at least one byte, so `fuel = rest.length` iterations suffice. -/
def rangeFrom : Nat → Nat → GoString → List (Nat × rune)
  | 0, _, _ => []
  | _ + 1, _, [] => []
  | fuel + 1, i, b0 :: rest =>
    let rw := nextRune (b0 :: rest)
    (i, rw.1) :: rangeFrom fuel (i + rw.2) ((b0 :: rest).drop rw.2)

/-- The pairs `(i, c)` visited by `for i, c := range s`. -/
def rangeString (s : GoString) : List (Nat × rune) := rangeFrom s.length 0 s

/-- The characters of a string: the runes a `range` loop yields. -/
def runes (s : GoString) : List rune := (rangeString s).map Prod.snd

/-! ## Go maps `map[bigram]bool` -/

/-- Source: `bigram struct{ r0, r1 rune }`. -/
structure bigram where
  r0 : rune
  r1 : rune
deriving DecidableEq, Repr

/-- A Go `map[bigram]bool`: its entries, one per key, listed in the order a `range`
over the map visits them. -/
structure GoMap where
  entries : List (bigram × Bool)
deriving DecidableEq, Repr

namespace GoMap

/-- Source: `make(map[bigram]bool)`. -/
def empty : GoMap := ⟨[]⟩

/-- The keys of the map, in iteration order. -/
def keys (m : GoMap) : List bigram := m.entries.map Prod.fst

/-- Source: `m[k]`, the zero value `false` when the key is absent. -/
def get (m : GoMap) (k : bigram) : Bool :=
  match m.entries.lookup k with
  | some v => v
  | none => false

/-- Source: `m[k] = v`: overwrite the entry of `k`, or add one. -/
def set (m : GoMap) (k : bigram) (v : Bool) : GoMap :=
  if k ∈ m.keys then ⟨m.entries.map fun kv => if kv.1 = k then (k, v) else kv⟩
  else ⟨m.entries ++ [(k, v)]⟩

/-- Source: `len(m)`. -/
def len (m : GoMap) : Nat := m.entries.length

end GoMap

/-! ## `bigrams` -/

/-- The loop state of `bigrams`: the map built so far and the variable `last`. -/
structure BigramState where
  result : GoMap
  last : rune

/-- The body of the loop in `bigrams` for one iteration `(i, c)`. -/
def bigramStep (st : BigramState) (ic : Nat × rune) : BigramState :=
  let result := if ic.1 > 0 then st.result.set ⟨st.last, ic.2⟩ true else st.result
  { result := result, last := ic.2 }

/-- Source: `func bigrams(s string) map[bigram]bool`. -/
def bigrams (s : GoString) : GoMap :=
  ((rangeString s).foldl bigramStep { result := GoMap.empty, last := 0 }).result

/-! ## IEEE-754 binary64 (`float64`) -/

/-- A `float64` value: not-a-number, an infinity with its sign, or a finite value given
by the rational it denotes. The two zeros are identified: they compare equal and no
operation of this program tells them apart. -/
inductive Float64 where
  | nan : Float64
  | inf (neg : Bool) : Float64
  | fin (q : ℚ) : Float64
deriving DecidableEq, Repr

/-- Round to the nearest integer, ties to the even one. -/
def roundHalfEven (x : ℚ) : ℤ :=
  if x - ⌊x⌋ < 1 / 2 then ⌊x⌋
  else if 1 / 2 < x - ⌊x⌋ then ⌊x⌋ + 1
  else if ⌊x⌋ % 2 = 0 then ⌊x⌋ else ⌊x⌋ + 1

/-- The exponent of the unit in the last place around `q`: 53 significant bits, and the
subnormal spacing `2 ^ (-1074)` at the bottom of the range. -/
def ulpExp (q : ℚ) : ℤ := max (Int.log 2 |q| - 52) (-1074)

namespace Float64

/-- Round a rational to binary64, to nearest with ties to even; magnitudes that round to
`2 ^ 1024` or more overflow to an infinity. -/
def round (q : ℚ) : Float64 :=
  let r : ℚ := roundHalfEven (q / 2 ^ ulpExp q) * 2 ^ ulpExp q
  if 2 ^ 1024 ≤ |r| then inf (decide (q < 0)) else fin r

/-- Source: the conversion `float64(n)` of an integer. -/
def ofInt (n : ℤ) : Float64 := round n

/-- Source: `x + y` on `float64`. -/
def add : Float64 → Float64 → Float64
  | fin x, fin y => round (x + y)
  | inf s, inf t => if s = t then inf s else nan
  | inf s, fin _ => inf s
  | fin _, inf t => inf t
  | _, _ => nan

/-- Source: `x * y` on `float64`. -/
def mul : Float64 → Float64 → Float64
  | fin x, fin y => round (x * y)
  | inf s, inf t => inf (s != t)
  | inf s, fin y => if y = 0 then nan else inf (s != decide (y < 0))
  | fin x, inf t => if x = 0 then nan else inf (decide (x < 0) != t)
  | _, _ => nan

/-- Source: `x / y` on `float64`. Division by zero does not trap: a non-zero dividend
gives an infinity and zero divided by zero gives not-a-number. -/
def div : Float64 → Float64 → Float64
  | fin x, fin y =>
    if y = 0 then (if x = 0 then nan else inf (decide (x < 0))) else round (x / y)
  | fin _, inf _ => fin 0
  | inf s, fin y => inf (s != decide (y < 0))
  | _, _ => nan

/-- Source: `x < y` on `float64`; false as soon as an operand is not-a-number. -/
def lt : Float64 → Float64 → Bool
  | fin x, fin y => decide (x < y)
  | fin _, inf t => !t
  | inf s, fin _ => s
  | inf s, inf t => s && !t
  | _, _ => false

/-- Source: `x == y` on `float64`; not-a-number equals nothing, itself included. -/
def eq : Float64 → Float64 → Bool
  | fin x, fin y => decide (x = y)
  | inf s, inf t => s == t
  | _, _ => false

/-- Source: `x > y` on `float64`. -/
def gt (x y : Float64) : Bool := lt y x

/-- Source: `x <= y` on `float64`. -/
def le (x y : Float64) : Bool := lt x y || eq x y

/-- Source: `x >= y` on `float64`. -/
def ge (x y : Float64) : Bool := le y x

end Float64

/-! ## `diceCoefficient` -/

/-- The loop of `diceCoefficient` run over the entries `order` of `ba`, in that order:
the final value of `intersection`, starting from `acc`. -/
def intersectionLoop (bb : GoMap) (order : List (bigram × Bool)) (acc : Float64) : Float64 :=
  order.foldl (fun intersection kv =>
    if bb.get kv.1 then Float64.add intersection (Float64.fin 1) else intersection) acc

/-- Source: `func diceCoefficient(a, b string) float64`. The map `ba` is ranged over in
the order of its entries. The sum `len(ba)+len(bb)` is taken in the naturals: a map of
bigrams has fewer than `2 ^ 41` keys, so the `int` addition cannot wrap. -/
def diceCoefficient (a b : GoString) : Float64 :=
  let ba := bigrams a
  let bb := bigrams b
  let intersection := intersectionLoop bb ba.entries (Float64.fin 0)
  Float64.div (Float64.mul intersection (Float64.fin 2)) (Float64.ofInt (ba.len + bb.len : ℕ))


/-! ## Sets of adjacent pairs -/

/-- The ordered pairs of adjacent elements `(c (i-1), c i)` of a sequence of runes. -/
def adjacent (rs : List rune) : List bigram := List.zipWith bigram.mk rs rs.tail

/-- The set of keys of `bigrams s`. -/
def bigramSet (s : GoString) : Finset bigram := (bigrams s).keys.toFinset

/-- The representation invariant of the maps `bigrams` builds: one entry per key, every
value `true`. -/
def GoMap.WF (m : GoMap) : Prop := m.keys.Nodup ∧ ∀ kv ∈ m.entries, kv.2 = true

/-- The number of characters of a string. -/
def charCount (s : GoString) : Nat := (runes s).length

/-- The coefficient as the specification writes it, `2 * |A ∩ B| / (|A| + |B|)`, over two
sets of bigrams and in exact arithmetic: twice the size of the intersection over the sum of
the two sizes. -/
def specCoefficient (A B : Finset bigram) : ℚ := 2 * ((A ∩ B).card : ℚ) / ((A.card : ℚ) + B.card)

/-! ## Records, matches and `Reader` -/

/-- Source: `type LicenseData struct`. -/
structure LicenseData where
  Title : GoString
  SpdxID : GoString
  RedirectFrom : GoString
  Source : GoString
  Description : GoString
  How : GoString
  Conditions : List GoString
  Permissions : List GoString
  Limitations : List GoString
  Using : List (List (GoString × GoString))
  Text : GoString
deriving DecidableEq

/-- Source: `Match struct { Coefficient float64; License *LicenseData }`. The pointer is
represented by the record it points to; records are never written after loading. -/
structure Match where
  Coefficient : Float64
  License : LicenseData
deriving DecidableEq

/-- Source: `func (m matchSorter) Less(i, j int) bool`, on the elements at `i` and `j`. -/
def matchSorter.Less (mi mj : Match) : Bool := Float64.gt mi.Coefficient mj.Coefficient

/-- A Go `error` value. -/
abbrev Error : Type := String

/-- An `io.Reader`, given by what `ioutil.ReadAll` returns on it: the bytes read and the
error, if any. -/
structure IoReader where
  data : GoString
  err : Option Error

/-- Source: `ioutil.ReadAll(r)`. -/
def ioutilReadAll (r : IoReader) : GoString × Option Error := (r.data, r.err)

/-- The ordering `sort.Interface` asks of `Less`, over the elements being sorted:
irreflexive, transitive, and with a transitive "neither is less" relation. -/
def TransitiveOrdering {α : Type} (less : α → α → Bool) (l : List α) : Prop :=
  (∀ x ∈ l, less x x = false) ∧
  (∀ x ∈ l, ∀ y ∈ l, ∀ z ∈ l, less x y = true → less y z = true → less x z = true) ∧
  (∀ x ∈ l, ∀ y ∈ l, ∀ z ∈ l, less x y = false → less y z = false → less x z = false)

/-- What `sort.Sort` guarantees for a function `sortSort` standing for it with the
comparison `less`: it only swaps elements, so the result is always a permutation of the
input, and the result is in ascending order of `less` whenever `less` is a transitive
ordering of the elements. Nothing is promised about the order of equal elements. -/
structure SortContract {α : Type} (less : α → α → Bool) (sortSort : List α → List α) :
    Prop where
  perm : ∀ l, (sortSort l).Perm l
  sorted : ∀ l, TransitiveOrdering less l →
    (sortSort l).Pairwise (fun x y => less y x = false)

/-- The inner loop of Go's `insertionSort`: the element `x` at index `j` moves left past
every neighbour it is `Less` than. The part of the slice before `j` is passed last
element first, and so is the result. -/
def insertLeft {α : Type} (less : α → α → Bool) (x : α) : List α → List α
  | [] => [x]
  | p :: ps => if less x p then p :: insertLeft less x ps else x :: p :: ps

/-- The `insertionSort` of Go, the routine of package `sort` that `sort.Sort` finishes short
slices with. -/
def insertionSort {α : Type} (less : α → α → Bool) (l : List α) : List α :=
  (l.foldl (fun sortedRev x => insertLeft less x sortedRev) []).reverse

/-- Source: `func Reader(r io.Reader) ([]Match, error)`, with the package variable
`licenses` and the library routine behind `sort.Sort` as parameters. A nil slice is the
empty list. -/
def Reader (sortSort : List Match → List Match) (licenses : List LicenseData)
    (r : IoReader) : List Match × Option Error :=
  match ioutilReadAll r with
  | (_, some err) => ([], some err)
  | (txt, none) =>
    let matchList := licenses.foldl (fun matchList lic =>
      matchList ++ [{ Coefficient := diceCoefficient lic.Text txt, License := lic }]) []
    (sortSort matchList, none)

/-- A reader over the bytes `txt` that reads without error. -/
def readerOf (txt : GoString) : IoReader := { data := txt, err := none }

/-! ## Concrete inputs -/

/-- The string `"aa"`. -/
def strAA : GoString := [0x61, 0x61]

/-- The string `"aaaa"`. -/
def strAAAA : GoString := [0x61, 0x61, 0x61, 0x61]

/-- The string `"ab"`. -/
def strAB : GoString := [0x61, 0x62]

/-- The string `"aab"`. -/
def strAAB : GoString := [0x61, 0x61, 0x62]

/-- The string `"é"`: one character, two bytes. -/
def strEAcute : GoString := [0xC3, 0xA9]

/-- The bytes of `"aéb"`, a stray byte `0xFF`, `"€"`, an emoji of four bytes and a
truncated two-byte sequence. -/
def strMixed : GoString :=
  [0x61, 0xC3, 0xA9, 0x62, 0xFF, 0xE2, 0x82, 0xAC, 0xF0, 0x9F, 0x98, 0x80, 0xC3]

/-- The string `"MIT License\nPermission is hereby granted..."` of the specification's
scenario. -/
def mitText : GoString :=
  [0x4D, 0x49, 0x54, 0x20, 0x4C, 0x69, 0x63, 0x65, 0x6E, 0x73, 0x65, 0x0A, 0x50, 0x65,
   0x72, 0x6D, 0x69, 0x73, 0x73, 0x69, 0x6F, 0x6E, 0x20, 0x69, 0x73, 0x20, 0x68, 0x65,
   0x72, 0x65, 0x62, 0x79, 0x20, 0x67, 0x72, 0x61, 0x6E, 0x74, 0x65, 0x64, 0x2E, 0x2E,
   0x2E]

/-- A record with the given text and every other field empty. -/
def licenseOfText (text : GoString) : LicenseData :=
  { Title := [], SpdxID := [], RedirectFrom := [], Source := [], Description := [],
    How := [], Conditions := [], Permissions := [], Limitations := [], Using := [],
    Text := text }

/-! ## `bytes.SplitN` -/

/-- Source: `[]byte("---\n")`, the separator of a catalog file. -/
def separator : GoString := [0x2D, 0x2D, 0x2D, 0x0A]

/-- Source: `bytes.Index(s, sep)`: the offset of the first occurrence of `sep` in `s`, or
`-1` when there is none. -/
def bytesIndex : GoString → GoString → Int
  | [], sep => if sep = [] then 0 else -1
  | c :: t, sep =>
    if sep.isPrefixOf (c :: t) then 0
    else if bytesIndex t sep < 0 then -1 else bytesIndex t sep + 1

/-- The loop of `genSplit` in package `bytes` with `remaining` more separators to look
for: cut `s` at the first occurrence of `sep` and go on with what follows it; the last
fragment is whatever is left. -/
def genSplitLoop : Nat → GoString → GoString → List GoString
  | 0, s, _ => [s]
  | remaining + 1, s, sep =>
    if bytesIndex s sep < 0 then [s]
    else s.take (bytesIndex s sep).toNat ::
      genSplitLoop remaining (s.drop ((bytesIndex s sep).toNat + sep.length)) sep

/-- Source: `bytes.SplitN(s, sep, n)` for a non-empty `sep` and `n > 0`, the only case the
program uses: at most `n` fragments, the last one the unsplit remainder. -/
def bytesSplitN (s sep : GoString) (n : Nat) : List GoString := genSplitLoop (n - 1) s sep

/-- The number of offsets of `s` at which `sep` occurs. -/
def occurrences : GoString → GoString → Nat
  | [], sep => if sep = [] then 1 else 0
  | c :: t, sep => (if sep.isPrefixOf (c :: t) then 1 else 0) + occurrences t sep

/-! ## Loading the catalog -/

/-- What the program takes from outside: the file system, the YAML library, package
`path/filepath`, package `go/build` and the working directory. -/
structure World where
  /-- The function `ioutil.ReadFile`: the bytes of the file and the error, if any. -/
  ioutilReadFile : String → GoString × Option Error
  /-- The function `yaml.Unmarshal(in, &out)`: the record after decoding `in` into it, and
  the error, if any. -/
  yamlUnmarshal : GoString → LicenseData → LicenseData × Option Error
  /-- The function `filepath.Base`. -/
  filepathBase : String → String
  /-- The function `filepath.Join`. -/
  filepathJoin : String → String → String
  /-- The function `filepath.Glob`: the matching paths and the error, if any. -/
  filepathGlob : String → List String × Option Error
  /-- The directory `p.Dir` of the package `build.Default.Import` finds, `none` for a nil
  package. -/
  buildImport : String → Option String
  /-- The function `os.Getwd`. -/
  osGetwd : String × Option Error

/-- The zero value of `LicenseData`, as declared by `var lic LicenseData`. -/
def zeroLicenseData : LicenseData := licenseOfText []

/-- Source: `errors.New(msg)`. -/
def errorsNew (msg : String) : Error := msg

/-- Source: `errors.Wrapf(err, ...)` with the formatted message `msg`. -/
def errorsWrapf (err : Error) (msg : String) : Error := msg ++ ": " ++ err

/-- Source: `func readLicenseData(path string) (*LicenseData, error)`: the record, `none`
for a nil pointer, and the error. -/
def readLicenseData (w : World) (path : String) : Option LicenseData × Option Error :=
  match w.ioutilReadFile path with
  | (_, some err) => (none, some err)
  | (txt, none) =>
    let fragments := bytesSplitN txt separator 3
    if fragments.length ≠ 3 then (none, some (errorsNew "want 3 fragments"))
    else
      match w.yamlUnmarshal (fragments.getD 1 []) zeroLicenseData with
      | (_, some err) =>
        (none, some (errorsWrapf err ("failed to read " ++ w.filepathBase path)))
      | (lic, none) => (some { lic with Text := fragments.getD 2 [] }, none)

/-- Source: `var basePackage`. -/
def basePackage : String := "github.com/aarondl/licenser/licenselib"

/-- Source: `func getBasePath(baseDirConfig string) (string, error)`. -/
def getBasePath (w : World) (baseDirConfig : String) : String × Option Error :=
  if baseDirConfig.length > 0 then (baseDirConfig, none)
  else
    match w.buildImport basePackage with
    | some dir => if dir.length > 0 then (dir, none) else w.osGetwd
    | none => w.osGetwd

/-- How a run of `loadAllLicenses` ends: the message of the panic, if it panicked, and the
package variable `licenses` at that point. -/
structure LoadOutcome where
  panicked : Option String
  licenses : List LicenseData
deriving DecidableEq

/-- The loop `for _, f := range files` of `loadAllLicenses`. A nil record never comes with
a nil error, so `lic.toList` is the one pointer appended. -/
def loadLoop (w : World) : List String → List LicenseData → LoadOutcome
  | [], licenses => { panicked := none, licenses := licenses }
  | f :: files, licenses =>
    match readLicenseData w f with
    | (_, some err) =>
      { panicked := some ("could not load license: " ++ err), licenses := licenses }
    | (lic, none) => loadLoop w files (licenses ++ lic.toList)

/-- Source: `func loadAllLicenses()`, from the value `licenses` of the package variable
before the call. -/
def loadAllLicenses (w : World) (licenses : List LicenseData) : LoadOutcome :=
  match getBasePath w "" with
  | (_, some err) =>
    { panicked := some ("could not find base path: " ++ err), licenses := licenses }
  | (base, none) =>
    let licenseDir := w.filepathJoin base "_licenses"
    match w.filepathGlob (w.filepathJoin licenseDir "*.txt") with
    | (_, some err) =>
      { panicked := some ("could not load license files: " ++ err), licenses := licenses }
    | (files, none) => loadLoop w files licenses

/-- A stand-in for `yaml.Unmarshal` that decides one document only: on the empty document
yaml.v2 finds no node, returns a nil error and leaves the destination untouched. Every
other document is reported as an error. -/
def yamlEmptyDocument (input : GoString) (out : LicenseData) : LicenseData × Option Error :=
  if input = [] then (out, none) else (out, some "yaml: document outside the stand-in")

/-- A world whose file system holds the given files, all of them under the catalog
directory, and whose YAML library is `yamlEmptyDocument`. -/
def worldOf (files : List (String × GoString)) : World :=
  { ioutilReadFile := fun path =>
      match files.lookup path with
      | some content => (content, none)
      | none => ([], some "open: no such file or directory")
    yamlUnmarshal := yamlEmptyDocument
    filepathBase := fun path => path
    filepathJoin := fun dir name => dir ++ "/" ++ name
    filepathGlob := fun _ => (files.map Prod.fst, none)
    buildImport := fun _ => some "licenselib"
    osGetwd := (".", none) }

/-- The file content `"---\n---\n"`: two separators and nothing else. -/
def fileTwoSeparators : GoString := separator ++ separator

/-- The file content `"---\n---\n---\n"`: three separators and nothing else. -/
def fileThreeSeparators : GoString := separator ++ separator ++ separator

/-- The file content `"---\nab"`: one separator. -/
def fileOneSeparator : GoString := separator ++ strAB

/-! ## Iteration order of a map -/

/-- Source: `func diceCoefficient`, with the entries of `ba` visited in the order `order`:
Go leaves the iteration order of a map unspecified, `order` is any enumeration of the
entries of `ba`. -/
def diceCoefficientOrder (order : List (bigram × Bool)) (a b : GoString) : Float64 :=
  let ba := bigrams a
  let bb := bigrams b
  let intersection := intersectionLoop bb order (Float64.fin 0)
  Float64.div (Float64.mul intersection (Float64.fin 2)) (Float64.ofInt (ba.len + bb.len : ℕ))

/-! ## Facts about rounding -/

theorem roundHalfEven_intCast (z : ℤ) : roundHalfEven (z : ℚ) = z := by
  simp [roundHalfEven]

theorem roundHalfEven_err (x : ℚ) : |(roundHalfEven x : ℚ) - x| ≤ 1 / 2 := by
  have h0 : (⌊x⌋ : ℚ) ≤ x := Int.floor_le x
  have h1 : x < ⌊x⌋ + 1 := Int.lt_floor_add_one x
  unfold roundHalfEven
  split_ifs with ha hb hc
  all_goals (rw [abs_le]; push_cast; constructor <;> linarith)

theorem ulpExp_natCast_nonpos (n : ℕ) (h : n < 2 ^ 53) : ulpExp (n : ℚ) ≤ 0 := by
  unfold ulpExp
  rw [abs_of_nonneg (by positivity), Int.log_natCast]
  rcases Nat.eq_zero_or_pos n with h0 | h0
  · subst h0; simp
  · have := Nat.log_lt_of_lt_pow (Nat.pos_iff_ne_zero.mp h0) h
    omega

/-- A rational that is an integer multiple of its unit in the last place, below the
overflow threshold, is a binary64 value: rounding leaves it as it is. -/
theorem Float64.round_exact (q : ℚ) (z : ℤ) (hz : q = z * 2 ^ ulpExp q)
    (hlt : |q| < 2 ^ 1024) : Float64.round q = Float64.fin q := by
  have hpos : (0 : ℚ) < 2 ^ ulpExp q := by positivity
  have hdiv : q / 2 ^ ulpExp q = z := by
    rw [div_eq_iff hpos.ne']; exact hz
  unfold Float64.round
  simp only [hdiv, roundHalfEven_intCast, ← hz]
  rw [if_neg (not_le.mpr hlt)]

/-- Integers below `2 ^ 53` are binary64 values. -/
theorem Float64.round_natCast (n : ℕ) (h : n < 2 ^ 53) :
    Float64.round (n : ℚ) = Float64.fin n := by
  have he := ulpExp_natCast_nonpos n h
  obtain ⟨k, hk⟩ : ∃ k : ℕ, ulpExp (n : ℚ) = -(k : ℤ) := ⟨(-ulpExp (n : ℚ)).toNat, by omega⟩
  apply Float64.round_exact (n : ℚ) ((n * 2 ^ k : ℕ) : ℤ)
  · rw [hk, zpow_neg, zpow_natCast]
    push_cast
    field_simp
  · rw [abs_of_nonneg (by positivity)]
    have : (n : ℚ) < 2 ^ 53 := by exact_mod_cast h
    linarith [show (2 : ℚ) ^ 53 < 2 ^ 1024 by norm_num]

theorem ulpExp_le_of_lt_one (q : ℚ) (h0 : 0 < q) (h1 : q < 1) : ulpExp q ≤ -53 := by
  unfold ulpExp
  rw [abs_of_pos h0]
  have : Int.log 2 q < 0 := by
    rw [← Int.lt_zpow_iff_log_lt (by norm_num) h0]
    simpa using h1
  omega

/-- Rounding a rational strictly between 0 and 1 yields a finite value at distance at
most `2 ^ (-54)`. -/
theorem Float64.round_near (q : ℚ) (h0 : 0 < q) (h1 : q < 1) :
    ∃ r : ℚ, Float64.round q = Float64.fin r ∧ |r - q| ≤ 1 / 2 ^ 54 := by
  have he := ulpExp_le_of_lt_one q h0 h1
  have hpos : (0 : ℚ) < 2 ^ ulpExp q := by positivity
  have hu : (2 : ℚ) ^ ulpExp q ≤ 1 / 2 ^ 53 := by
    have h53 : (2 : ℚ) ^ ulpExp q ≤ 2 ^ (-53 : ℤ) := zpow_le_zpow_right₀ (by norm_num) he
    have h54 : (2 : ℚ) ^ (-53 : ℤ) = 1 / 2 ^ 53 := by norm_num [zpow_neg]
    rw [h54] at h53; exact h53
  have herr := roundHalfEven_err (q / 2 ^ ulpExp q)
  set m : ℚ := (roundHalfEven (q / 2 ^ ulpExp q) : ℚ) with hm
  have hd : m * 2 ^ ulpExp q - q = (m - q / 2 ^ ulpExp q) * 2 ^ ulpExp q := by
    field_simp
  have hbound : |m * 2 ^ ulpExp q - q| ≤ 1 / 2 ^ 54 := by
    rw [hd, abs_mul, abs_of_pos hpos]
    calc |m - q / 2 ^ ulpExp q| * 2 ^ ulpExp q ≤ 1 / 2 * (1 / 2 ^ 53) :=
          mul_le_mul herr hu hpos.le (by norm_num)
      _ = 1 / 2 ^ 54 := by norm_num
  refine ⟨m * 2 ^ ulpExp q, ?_, hbound⟩
  unfold Float64.round
  simp only [← hm]
  rw [if_neg]
  rw [not_le]
  have h2 := abs_le.mp hbound
  have : |m * 2 ^ ulpExp q| < 2 := by
    rw [abs_lt]; constructor <;> linarith [h2.1, h2.2, show (1 : ℚ) / 2 ^ 54 < 1 by norm_num]
  linarith [show (2 : ℚ) < 2 ^ 1024 by norm_num]

/-! ## Facts about `range` over a string -/

theorem rune2_lt (a b : Nat) : ((a &&& mask2) <<< 6) ||| (b &&& maskx) < 2 ^ 11 := by
  have h1 : a &&& mask2 < 2 ^ 5 := Nat.and_lt_two_pow a (by decide)
  have h2 : b &&& maskx < 2 ^ 11 := Nat.and_lt_two_pow b (by decide)
  apply Nat.or_lt_two_pow _ h2
  rw [Nat.shiftLeft_eq]; omega

theorem rune3_lt (a b c : Nat) :
    ((a &&& mask3) <<< 12) ||| ((b &&& maskx) <<< 6) ||| (c &&& maskx) < 2 ^ 16 := by
  have h1 : a &&& mask3 < 2 ^ 4 := Nat.and_lt_two_pow a (by decide)
  have h2 : b &&& maskx < 2 ^ 6 := Nat.and_lt_two_pow b (by decide)
  have h3 : c &&& maskx < 2 ^ 16 := Nat.and_lt_two_pow c (by decide)
  apply Nat.or_lt_two_pow (Nat.or_lt_two_pow _ _) h3
  · rw [Nat.shiftLeft_eq]; omega
  · rw [Nat.shiftLeft_eq]; omega

/-- What `decoderune` can return: the error rune with width one, or a rune of at most
`maxRune` with a width from two to four. -/
theorem decoderune_cases (s : GoString) :
    decoderune s = (runeError, 1) ∨
      ∃ r w, decoderune s = (r, w) ∧ 2 ≤ w ∧ w ≤ 4 ∧ r ≤ maxRune := by
  have h11 : 2 ^ 11 ≤ maxRune := by norm_num [maxRune]
  have h16 : 2 ^ 16 ≤ maxRune := by norm_num [maxRune]
  unfold decoderune
  repeat' split
  all_goals (try dsimp only)
  all_goals (try split_ifs)
  all_goals (try (left; rfl))
  · exact Or.inr ⟨_, _, rfl, by norm_num, by norm_num, le_of_lt (lt_of_lt_of_le (rune2_lt _ _) h11)⟩
  · exact Or.inr ⟨_, _, rfl, by norm_num, by norm_num,
      le_of_lt (lt_of_lt_of_le (rune3_lt _ _ _) h16)⟩
  · rename_i h
    exact Or.inr ⟨_, _, rfl, by norm_num, by norm_num, h.2⟩

theorem nextRune_width_pos (s : GoString) : 1 ≤ (nextRune s).2 := by
  cases s with
  | nil => simp [nextRune]
  | cons b0 tl =>
    simp only [nextRune]
    split_ifs
    · simp
    · rcases decoderune_cases (b0 :: tl) with h | ⟨r, w, h, h2, _, _⟩
      · rw [h]
      · rw [h]; show 1 ≤ w; omega

theorem nextRune_le_maxRune (s : GoString) : (nextRune s).1 ≤ maxRune := by
  cases s with
  | nil => simp [nextRune, runeError, maxRune]
  | cons b0 tl =>
    simp only [nextRune]
    split_ifs with hb
    · simp only [runeSelf] at hb
      show b0.toNat ≤ 0x10FFFF
      omega
    · rcases decoderune_cases (b0 :: tl) with h | ⟨r, w, h, _, _, h3⟩
      · rw [h]; simp [runeError, maxRune]
      · rw [h]; exact h3

/-- Every byte offset a `range` loop visits from offset `i` on is at least `i`. -/
theorem rangeFrom_index_ge (fuel i : Nat) (rest : GoString) :
    ∀ p ∈ rangeFrom fuel i rest, i ≤ p.1 := by
  induction fuel generalizing i rest with
  | zero => intro p hp; simp [rangeFrom] at hp
  | succ n ih =>
    cases rest with
    | nil => intro p hp; simp [rangeFrom] at hp
    | cons b0 tl =>
      intro p hp
      simp only [rangeFrom, List.mem_cons] at hp
      rcases hp with rfl | hp
      · exact le_refl _
      · have := ih _ _ p hp
        omega

/-- The shape of a `range` loop over a string: no iteration at all, or a first one at
byte offset 0 followed by iterations at positive offsets only. -/
theorem rangeString_shape (s : GoString) :
    rangeString s = [] ∨
      ∃ c l, rangeString s = (0, c) :: l ∧ ∀ p ∈ l, 0 < p.1 := by
  unfold rangeString
  cases s with
  | nil => left; rfl
  | cons b0 tl =>
    right
    refine ⟨_, _, rfl, ?_⟩
    intro p hp
    have h1 := rangeFrom_index_ge _ _ _ p hp
    have h2 := nextRune_width_pos (b0 :: tl)
    omega

/-- Fuel beyond the number of remaining bytes changes nothing: the loop has ended. -/
theorem rangeFrom_fuel (f g i : Nat) (rest : GoString) (hf : rest.length ≤ f)
    (hg : rest.length ≤ g) : rangeFrom f i rest = rangeFrom g i rest := by
  induction f generalizing g i rest with
  | zero =>
    have : rest = [] := List.length_eq_zero.mp (Nat.le_zero.mp hf)
    subst this
    cases g <;> rfl
  | succ n ih =>
    cases rest with
    | nil => cases g <;> rfl
    | cons b0 tl =>
      cases g with
      | zero => simp at hg
      | succ m =>
        have hw := nextRune_width_pos (b0 :: tl)
        simp only [List.length_cons] at hf hg
        have hlen : ((b0 :: tl).drop (nextRune (b0 :: tl)).2).length ≤ tl.length := by
          simp only [List.length_drop, List.length_cons]; omega
        simp only [rangeFrom]
        rw [ih m _ _ (by omega) (by omega)]

/-- Every rune a `range` loop yields is at most `maxRune`. -/
theorem rangeFrom_rune_le (fuel i : Nat) (rest : GoString) :
    ∀ p ∈ rangeFrom fuel i rest, p.2 ≤ maxRune := by
  induction fuel generalizing i rest with
  | zero => intro p hp; simp [rangeFrom] at hp
  | succ n ih =>
    cases rest with
    | nil => intro p hp; simp [rangeFrom] at hp
    | cons b0 tl =>
      intro p hp
      simp only [rangeFrom, List.mem_cons] at hp
      rcases hp with rfl | hp
      · exact nextRune_le_maxRune _
      · exact ih _ _ p hp

/-- A `range` loop over well-formed sequences of one to four bytes and over ill-formed
bytes: byte offsets and runes. -/
theorem rangeString_mixed :
    rangeString strMixed =
      [(0, 0x61), (1, 0xE9), (3, 0x62), (4, 0xFFFD), (5, 0x20AC), (8, 0x1F600),
        (12, 0xFFFD)] := by
  decide

theorem runes_le_maxRune (s : GoString) : ∀ c ∈ runes s, c ≤ maxRune := by
  intro c hc
  simp only [runes, List.mem_map] at hc
  obtain ⟨p, hp, rfl⟩ := hc
  exact rangeFrom_rune_le _ _ _ p hp

/-! ## Facts about maps and `bigrams` -/

theorem GoMap.empty_wf : GoMap.empty.WF := by
  constructor
  · simp [GoMap.empty, GoMap.keys]
  · intro kv hkv; simp [GoMap.empty] at hkv

theorem GoMap.keys_set (m : GoMap) (k : bigram) (v : Bool) :
    (m.set k v).keys = if k ∈ m.keys then m.keys else m.keys ++ [k] := by
  unfold GoMap.set
  split_ifs with h
  · simp only [GoMap.keys, List.map_map]
    apply List.map_congr_left
    intro kv _
    simp only [Function.comp]
    split_ifs with hk
    · exact hk.symm
    · rfl
  · simp [GoMap.keys]

theorem GoMap.mem_keys_set (m : GoMap) (k k' : bigram) (v : Bool) :
    k' ∈ (m.set k v).keys ↔ k' ∈ m.keys ∨ k' = k := by
  rw [GoMap.keys_set]
  split_ifs with h
  · constructor
    · exact Or.inl
    · rintro (h' | rfl)
      · exact h'
      · exact h
  · simp

theorem GoMap.set_wf (m : GoMap) (k : bigram) (h : m.WF) : (m.set k true).WF := by
  constructor
  · rw [GoMap.keys_set]
    split_ifs with hk
    · exact h.1
    · exact List.Nodup.append h.1 (List.nodup_singleton k) (by simpa using hk)
  · intro kv hkv
    unfold GoMap.set at hkv
    split_ifs at hkv with hk
    · simp only [List.mem_map] at hkv
      obtain ⟨kv', hkv', rfl⟩ := hkv
      split_ifs
      · rfl
      · exact h.2 kv' hkv'
    · simp only [List.mem_append, List.mem_singleton] at hkv
      rcases hkv with hkv | rfl
      · exact h.2 kv hkv
      · rfl

theorem lookup_some_mem (l : List (bigram × Bool)) (k : bigram) (v : Bool)
    (hl : l.lookup k = some v) : (k, v) ∈ l := by
  induction l with
  | nil => simp at hl
  | cons hd tl ih =>
    rcases hd with ⟨k', v'⟩
    simp only [List.lookup] at hl
    by_cases hkk : k = k'
    · subst hkk; simp at hl; subst hl; exact List.mem_cons_self _ _
    · have : (k == k') = false := by simpa using hkk
      rw [this] at hl
      exact List.mem_cons_of_mem _ (ih hl)

/-- In a well-formed map, `m[k]` is `true` exactly for the keys of the map. -/
theorem GoMap.get_eq_true_iff (m : GoMap) (h : m.WF) (k : bigram) :
    m.get k = true ↔ k ∈ m.keys := by
  unfold GoMap.get
  cases hl : m.entries.lookup k with
  | none =>
    simp only [Bool.false_eq_true, false_iff]
    intro hk
    simp only [GoMap.keys, List.mem_map] at hk
    obtain ⟨⟨k', v⟩, hkv, rfl⟩ := hk
    have := List.lookup_eq_none_iff.mp hl (k', v) hkv
    simp at this
  | some v =>
    have hmem : (k, v) ∈ m.entries := lookup_some_mem _ _ _ hl
    have hv : v = true := h.2 (k, v) hmem
    subst hv
    simp only [true_iff]
    exact List.mem_map.mpr ⟨(k, true), hmem, rfl⟩

theorem adjacent_cons_cons (a b : rune) (t : List rune) :
    adjacent (a :: b :: t) = ⟨a, b⟩ :: adjacent (b :: t) := rfl

/-- The loop of `bigrams` over iterations at positive byte offsets: the map stays
well-formed and gains exactly the pairs of adjacent runes, `last` included. -/
theorem bigram_fold (l : List (Nat × rune)) (st : BigramState)
    (hpos : ∀ p ∈ l, 0 < p.1) (hwf : st.result.WF) :
    (l.foldl bigramStep st).result.WF ∧
      ∀ k, k ∈ (l.foldl bigramStep st).result.keys ↔
        (k ∈ st.result.keys ∨ k ∈ adjacent (st.last :: l.map Prod.snd)) := by
  induction l generalizing st with
  | nil => simp [adjacent, hwf]
  | cons p tl ih =>
    have hp : 0 < p.1 := hpos p (List.mem_cons_self _ _)
    have hstep : bigramStep st p =
        { result := st.result.set ⟨st.last, p.2⟩ true, last := p.2 } := by
      simp [bigramStep, hp]
    have htl : ∀ q ∈ tl, 0 < q.1 := fun q hq => hpos q (List.mem_cons_of_mem _ hq)
    have := ih (bigramStep st p) htl (by rw [hstep]; exact GoMap.set_wf _ _ hwf)
    refine ⟨this.1, ?_⟩
    intro k
    rw [List.foldl_cons, this.2 k, hstep]
    simp only [List.map_cons, adjacent_cons_cons, List.mem_cons, GoMap.mem_keys_set]
    tauto

theorem bigrams_spec (s : GoString) :
    (bigrams s).WF ∧ ∀ k, k ∈ (bigrams s).keys ↔ k ∈ adjacent (runes s) := by
  unfold bigrams runes
  rcases rangeString_shape s with h | ⟨c, l, h, hpos⟩
  · rw [h]
    exact ⟨GoMap.empty_wf, fun k => by simp [adjacent, GoMap.empty, GoMap.keys]⟩
  · rw [h]
    have hfirst : bigramStep { result := GoMap.empty, last := 0 } (0, c) =
        { result := GoMap.empty, last := c } := by
      simp [bigramStep]
    rw [List.foldl_cons, hfirst]
    have := bigram_fold l { result := GoMap.empty, last := c } hpos GoMap.empty_wf
    refine ⟨this.1, ?_⟩
    intro k
    rw [this.2 k]
    simp [GoMap.empty, GoMap.keys]

/-! ## Sizes of bigram sets -/

theorem mem_adjacent (rs : List rune) (k : bigram) (h : k ∈ adjacent rs) :
    k.r0 ∈ rs ∧ k.r1 ∈ rs := by
  unfold adjacent at h
  rw [List.mem_iff_get] at h
  obtain ⟨⟨i, hi⟩, rfl⟩ := h
  simp only [List.length_zipWith, List.length_tail] at hi
  simp only [List.get_eq_getElem, List.getElem_zipWith]
  exact ⟨List.getElem_mem _, List.mem_of_mem_tail (List.getElem_mem _)⟩

theorem bigrams_keys_le (s : GoString) (k : bigram) (h : k ∈ (bigrams s).keys) :
    k.r0 ≤ maxRune ∧ k.r1 ≤ maxRune := by
  have := mem_adjacent _ _ (((bigrams_spec s).2 k).mp h)
  exact ⟨runes_le_maxRune s _ this.1, runes_le_maxRune s _ this.2⟩

theorem bigramSet_card (s : GoString) : (bigramSet s).card = (bigrams s).len := by
  unfold bigramSet
  rw [List.toFinset_card_of_nodup (bigrams_spec s).1.1]
  simp [GoMap.keys, GoMap.len]

/-- A string has fewer than `2 ^ 41` distinct bigrams, however long it is. -/
theorem bigramSet_card_lt (s : GoString) : (bigramSet s).card < 2 ^ 41 := by
  have hsub : (bigramSet s).card ≤
      (Finset.range (maxRune + 1) ×ˢ Finset.range (maxRune + 1)).card := by
    apply Finset.card_le_card_of_injOn (fun k => (k.r0, k.r1))
    · intro k hk
      have := bigrams_keys_le s k (by simpa [bigramSet] using hk)
      have h0 : k.r0 < maxRune + 1 := Nat.lt_succ_of_le this.1
      have h1 : k.r1 < maxRune + 1 := Nat.lt_succ_of_le this.2
      simp [h0, h1]
    · intro k _ k' _ hkk
      cases k; cases k'
      simp only [Prod.mk.injEq] at hkk
      simp [hkk.1, hkk.2]
  rw [Finset.card_product, Finset.card_range] at hsub
  have : (maxRune + 1) * (maxRune + 1) < 2 ^ 41 := by norm_num [maxRune]
  exact lt_of_le_of_lt hsub this

/-! ## The counting loop of `diceCoefficient` -/

/-- While the count stays below `2 ^ 53` the `float64` counter `intersection` is exact:
after the loop it holds the number of visited keys that are in `bb`. -/
theorem intersectionLoop_count (bb : GoMap) (order : List (bigram × Bool)) (n : ℕ)
    (h : n + order.length < 2 ^ 53) :
    intersectionLoop bb order (Float64.fin n) =
      Float64.fin ((n + (order.filter fun kv => bb.get kv.1).length : ℕ) : ℚ) := by
  induction order generalizing n with
  | nil => simp [intersectionLoop]
  | cons kv tl ih =>
    simp only [List.length_cons] at h
    unfold intersectionLoop at ih ⊢
    rw [List.foldl_cons]
    by_cases hk : bb.get kv.1 = true
    · have hadd : Float64.add (Float64.fin n) (Float64.fin 1) = Float64.fin ((n + 1 : ℕ) : ℚ) := by
        have := Float64.round_natCast (n + 1) (by omega)
        simpa [Float64.add] using this
      rw [if_pos hk, hadd, ih (n + 1) (by omega), List.filter_cons_of_pos (by simpa using hk)]
      simp only [List.length_cons]
      congr 2
      omega
    · rw [if_neg hk, ih n (by omega), List.filter_cons_of_neg (by simpa using hk)]

theorem filter_keys_card (a b : GoString) :
    ((bigrams a).entries.filter fun kv => (bigrams b).get kv.1).length =
      (bigramSet a ∩ bigramSet b).card := by
  have hwa := (bigrams_spec a).1
  have hwb := (bigrams_spec b).1
  have h1 : ((bigrams a).entries.filter fun kv => (bigrams b).get kv.1).length =
      ((bigrams a).keys.filter fun k => (bigrams b).get k).length := by
    simp only [GoMap.keys, List.filter_map, List.length_map]
    rfl
  rw [h1, ← List.toFinset_card_of_nodup (hwa.1.filter _)]
  congr 1
  ext k
  simp only [List.mem_toFinset, List.mem_filter, Finset.mem_inter, bigramSet,
    GoMap.get_eq_true_iff _ hwb]

/-- The value `diceCoefficient` computes, in terms of the sizes of the two key sets and of
their intersection; no rounding happens before the final division. -/
theorem diceCoefficient_eq (a b : GoString) :
    diceCoefficient a b =
      Float64.div (Float64.fin ((2 * (bigramSet a ∩ bigramSet b).card : ℕ) : ℚ))
        (Float64.fin (((bigramSet a).card + (bigramSet b).card : ℕ) : ℚ)) := by
  have ha := bigramSet_card_lt a
  have hb := bigramSet_card_lt b
  have hi : (bigramSet a ∩ bigramSet b).card ≤ (bigramSet a).card :=
    Finset.card_le_card Finset.inter_subset_left
  unfold diceCoefficient
  simp only
  have hloop := intersectionLoop_count (bigrams b) (bigrams a).entries 0
    (by have := bigramSet_card a; simp only [GoMap.len] at this; omega)
  simp only [Nat.cast_zero, zero_add, filter_keys_card] at hloop
  rw [hloop, ← bigramSet_card a, ← bigramSet_card b]
  have hmul : Float64.mul (Float64.fin ((bigramSet a ∩ bigramSet b).card : ℚ)) (Float64.fin 2) =
      Float64.fin ((2 * (bigramSet a ∩ bigramSet b).card : ℕ) : ℚ) := by
    have := Float64.round_natCast (2 * (bigramSet a ∩ bigramSet b).card) (by omega)
    simp only [Float64.mul]
    rw [← this]
    congr 1
    push_cast
    ring
  have hden : Float64.ofInt (((bigramSet a).card + (bigramSet b).card : ℕ) : ℤ) =
      Float64.fin (((bigramSet a).card + (bigramSet b).card : ℕ) : ℚ) := by
    have := Float64.round_natCast ((bigramSet a).card + (bigramSet b).card) (by omega)
    simpa [Float64.ofInt] using this
  rw [hmul, hden]

/-! ## The final division -/

/-- The quotient of two integers `p ≤ d`, `0 < d < 2 ^ 53`, rounds to a finite value in
`[0, 1]` within `2 ^ (-54)` of the exact quotient; it is 0 only for `p = 0` and 1 only
for `p = d`. -/
theorem Float64.round_ratio (p d : ℕ) (hd : 0 < d) (hd53 : d < 2 ^ 53) (hp : p ≤ d) :
    ∃ r : ℚ, Float64.round ((p : ℚ) / d) = Float64.fin r ∧ 0 ≤ r ∧ r ≤ 1 ∧
      (r = 0 ↔ p = 0) ∧ (r = 1 ↔ p = d) ∧ |r - (p : ℚ) / d| ≤ 1 / 2 ^ 54 := by
  have hdq : (0 : ℚ) < d := by exact_mod_cast hd
  have hd53q : (d : ℚ) < 2 ^ 53 := by exact_mod_cast hd53
  rcases Nat.eq_zero_or_pos p with h0 | hpos
  · subst h0
    refine ⟨0, ?_, le_refl _, by norm_num, by simp, ?_, by simp⟩
    · have := Float64.round_natCast 0 (by norm_num)
      simpa using this
    · constructor
      · intro h; norm_num at h
      · intro h; omega
  rcases Nat.eq_or_lt_of_le hp with h1 | hlt
  · subst h1
    refine ⟨1, ?_, by norm_num, le_refl _, ?_, by simp, ?_⟩
    · have := Float64.round_natCast 1 (by norm_num)
      rw [div_self hdq.ne']
      simpa using this
    · constructor
      · intro h; norm_num at h
      · intro h; omega
    · rw [div_self hdq.ne']; norm_num
  have hpq : (0 : ℚ) < p := by exact_mod_cast hpos
  have hq0 : (0 : ℚ) < (p : ℚ) / d := div_pos hpq hdq
  have hq1 : (p : ℚ) / d < 1 := by
    rw [div_lt_one hdq]; exact_mod_cast hlt
  obtain ⟨r, hr, herr⟩ := Float64.round_near _ hq0 hq1
  have hinv : (1 : ℚ) / 2 ^ 53 < 1 / d := one_div_lt_one_div_of_lt hdq hd53q
  have hlow : (1 : ℚ) / d ≤ (p : ℚ) / d := by
    apply div_le_div_of_nonneg_right _ hdq.le
    exact_mod_cast hpos
  have hup : (p : ℚ) / d ≤ 1 - 1 / d := by
    have : (p : ℚ) + 1 ≤ d := by exact_mod_cast hlt
    rw [le_sub_iff_add_le, ← add_div, div_le_one hdq]
    exact this
  have hb := abs_le.mp herr
  have e54 : (1 : ℚ) / 2 ^ 53 = 2 * (1 / 2 ^ 54) := by norm_num
  have e54pos : (0 : ℚ) < 1 / 2 ^ 54 := by norm_num
  have hr0 : 0 < r := by linarith [hb.1]
  have hr1 : r < 1 := by linarith [hb.2]
  refine ⟨r, hr, hr0.le, hr1.le, ?_, ?_, herr⟩
  · constructor
    · intro h; linarith
    · intro h; omega
  · constructor
    · intro h; linarith
    · intro h; omega

/-- With a non-zero divisor, `diceCoefficient` is the exact quotient rounded once. -/
theorem diceCoefficient_round (a b : GoString)
    (h : (bigramSet a).card + (bigramSet b).card ≠ 0) :
    diceCoefficient a b =
      Float64.round (((2 * (bigramSet a ∩ bigramSet b).card : ℕ) : ℚ) /
        (((bigramSet a).card + (bigramSet b).card : ℕ) : ℚ)) := by
  rw [diceCoefficient_eq]
  have hne : (((bigramSet a).card + (bigramSet b).card : ℕ) : ℚ) ≠ 0 := by exact_mod_cast h
  simp only [Float64.div, if_neg hne]

/-- With both bigram sets empty the divisor and the dividend are zero and the result is
not-a-number. -/
theorem diceCoefficient_nan (a b : GoString)
    (h : (bigramSet a).card + (bigramSet b).card = 0) :
    diceCoefficient a b = Float64.nan := by
  rw [diceCoefficient_eq]
  have hi : (bigramSet a ∩ bigramSet b).card ≤ (bigramSet a).card :=
    Finset.card_le_card Finset.inter_subset_left
  have h0 : (bigramSet a ∩ bigramSet b).card = 0 := by omega
  rw [h, h0]
  simp [Float64.div]

theorem inter_card_bounds (a b : GoString) :
    2 * (bigramSet a ∩ bigramSet b).card ≤ (bigramSet a).card + (bigramSet b).card := by
  have h1 : (bigramSet a ∩ bigramSet b).card ≤ (bigramSet a).card :=
    Finset.card_le_card Finset.inter_subset_left
  have h2 : (bigramSet a ∩ bigramSet b).card ≤ (bigramSet b).card :=
    Finset.card_le_card Finset.inter_subset_right
  omega

/-- The value of `diceCoefficient` when at least one bigram set is not empty. -/
theorem diceCoefficient_value (a b : GoString)
    (h : (bigramSet a).card + (bigramSet b).card ≠ 0) :
    ∃ r : ℚ, diceCoefficient a b = Float64.fin r ∧ 0 ≤ r ∧ r ≤ 1 ∧
      (r = 0 ↔ (bigramSet a ∩ bigramSet b).card = 0) ∧
      (r = 1 ↔ 2 * (bigramSet a ∩ bigramSet b).card =
        (bigramSet a).card + (bigramSet b).card) ∧
      |r - ((2 * (bigramSet a ∩ bigramSet b).card : ℕ) : ℚ) /
        (((bigramSet a).card + (bigramSet b).card : ℕ) : ℚ)| ≤ 1 / 2 ^ 54 := by
  have ha := bigramSet_card_lt a
  have hb := bigramSet_card_lt b
  obtain ⟨r, hr, h0, h1, hz, ho, herr⟩ := Float64.round_ratio
    (2 * (bigramSet a ∩ bigramSet b).card) ((bigramSet a).card + (bigramSet b).card)
    (Nat.pos_of_ne_zero h) (by omega) (inter_card_bounds a b)
  refine ⟨r, ?_, h0, h1, ?_, ho, herr⟩
  · rw [diceCoefficient_round a b h]; exact hr
  · rw [hz]; omega

/-! ## Characters and bigram sets -/

theorem adjacent_length (rs : List rune) : (adjacent rs).length = rs.length - 1 := by
  simp only [adjacent, List.length_zipWith, List.length_tail]
  omega

/-- The adjacent pairs of a sequence, by position. -/
theorem mem_adjacent_iff (rs : List rune) (k : bigram) :
    k ∈ adjacent rs ↔
      ∃ i, 1 ≤ i ∧ i < rs.length ∧ rs[i - 1]? = some k.r0 ∧ rs[i]? = some k.r1 := by
  constructor
  · intro h
    rw [List.mem_iff_getElem] at h
    obtain ⟨j, hj, rfl⟩ := h
    rw [adjacent_length] at hj
    refine ⟨j + 1, by omega, by omega, ?_, ?_⟩
    · simp only [adjacent, List.getElem_zipWith, Nat.add_sub_cancel]
      exact List.getElem?_eq_getElem (by omega)
    · simp only [adjacent, List.getElem_zipWith, List.getElem_tail]
      exact List.getElem?_eq_getElem (by omega)
  · rintro ⟨i, h1, h2, h3, h4⟩
    rw [List.mem_iff_getElem]
    refine ⟨i - 1, by rw [adjacent_length]; omega, ?_⟩
    rw [List.getElem?_eq_getElem (by omega)] at h3 h4
    simp only [Option.some.injEq] at h3 h4
    cases k
    simp only [adjacent, List.getElem_zipWith, List.getElem_tail, bigram.mk.injEq]
    simp only at h3 h4
    refine ⟨h3, ?_⟩
    rw [← h4]
    congr 1
    omega

/-- The map `bigrams s` is empty exactly when `s` has fewer than two characters. -/
theorem bigrams_len_eq_zero_iff (s : GoString) : (bigrams s).len = 0 ↔ charCount s < 2 := by
  have hk : (bigrams s).len = (bigrams s).keys.length := by simp [GoMap.len, GoMap.keys]
  rw [hk, List.length_eq_zero]
  constructor
  · intro h
    have : adjacent (runes s) = [] := by
      apply List.eq_nil_iff_forall_not_mem.mpr
      intro k hk'
      have := ((bigrams_spec s).2 k).mpr hk'
      rw [h] at this
      simp at this
    have hl := adjacent_length (runes s)
    rw [this] at hl
    simp only [List.length_nil] at hl
    unfold charCount
    omega
  · intro h
    apply List.eq_nil_iff_forall_not_mem.mpr
    intro k hk'
    have := ((bigrams_spec s).2 k).mp hk'
    have hl := adjacent_length (runes s)
    have : 0 < (adjacent (runes s)).length := List.length_pos_of_mem this
    unfold charCount at h
    omega

theorem card_sum_ne_zero_iff (a b : GoString) :
    (bigramSet a).card + (bigramSet b).card ≠ 0 ↔ ¬ (charCount a < 2 ∧ charCount b < 2) := by
  rw [bigramSet_card, bigramSet_card, ← bigrams_len_eq_zero_iff, ← bigrams_len_eq_zero_iff]
  omega

theorem card_sum_ne_zero_of_len (a b : GoString)
    (h : (bigrams a).len ≠ 0 ∨ (bigrams b).len ≠ 0) :
    (bigramSet a).card + (bigramSet b).card ≠ 0 := by
  rw [bigramSet_card, bigramSet_card]
  omega

/-- As values, `diceCoefficient a b` and `diceCoefficient b a` are the same, whether
finite or not-a-number. -/
theorem diceCoefficient_comm (a b : GoString) :
    diceCoefficient a b = diceCoefficient b a := by
  rw [diceCoefficient_eq, diceCoefficient_eq, Finset.inter_comm, Nat.add_comm]

/-- Outside the case of two empty bigram sets the coefficient is finite and `==` holds
between the two orders of the arguments. -/
theorem diceCoefficient_eq_symm (a b : GoString)
    (h : ¬ (charCount a < 2 ∧ charCount b < 2)) :
    Float64.eq (diceCoefficient a b) (diceCoefficient b a) = true := by
  obtain ⟨r, hr, _⟩ := diceCoefficient_value a b ((card_sum_ne_zero_iff a b).mpr h)
  rw [← diceCoefficient_comm a b, hr]
  simp [Float64.eq]

/-! ## The coefficient -/

/-- C1: when at least one of the two strings has a non-empty bigram set, the loop counter
`intersection` ends as the number of bigrams common to the key sets of `bigrams a` and
`bigrams b`, and `diceCoefficient a b` is twice that number divided by the sum of the two
set sizes: the exact quotient rounded once to `float64`, a finite value within
`2 ^ (-54)` of it. -/
theorem diceCoefficient_formula (a b : GoString)
    (h : (bigrams a).len ≠ 0 ∨ (bigrams b).len ≠ 0) :
    intersectionLoop (bigrams b) (bigrams a).entries (Float64.fin 0) =
        Float64.fin ((bigramSet a ∩ bigramSet b).card : ℚ) ∧
      diceCoefficient a b = Float64.round (specCoefficient (bigramSet a) (bigramSet b)) ∧
      ∃ r : ℚ, diceCoefficient a b = Float64.fin r ∧
        |r - specCoefficient (bigramSet a) (bigramSet b)| ≤ 1 / 2 ^ 54 := by
  have hne := card_sum_ne_zero_of_len a b h
  have hratio : specCoefficient (bigramSet a) (bigramSet b) =
      ((2 * (bigramSet a ∩ bigramSet b).card : ℕ) : ℚ) /
        (((bigramSet a).card + (bigramSet b).card : ℕ) : ℚ) := by
    unfold specCoefficient; push_cast; rfl
  refine ⟨?_, ?_, ?_⟩
  · have ha := bigramSet_card_lt a
    have hloop := intersectionLoop_count (bigrams b) (bigrams a).entries 0
      (by have := bigramSet_card a; simp only [GoMap.len] at this; omega)
    simpa [filter_keys_card] using hloop
  · rw [hratio]; exact diceCoefficient_round a b hne
  · obtain ⟨r, hr, _, _, _, _, herr⟩ := diceCoefficient_value a b hne
    exact ⟨r, hr, by rw [hratio]; exact herr⟩

theorem diceCoefficient_formula_witness :
    ((bigrams strAAB).len ≠ 0 ∨ (bigrams strAB).len ≠ 0) ∧
      diceCoefficient strAAB strAB =
        Float64.round (specCoefficient (bigramSet strAAB) (bigramSet strAB)) :=
  ⟨by decide, (diceCoefficient_formula strAAB strAB (by decide)).2.1⟩

/-- C2: the keys of `bigrams s` are exactly the pairs `(c (i-1), c i)`, `1 ≤ i ≤ n-1`, of
adjacent characters of `s`, each key once; a string of a single character, however many
bytes it takes, has no bigram, and the placeholder `last = 0` enters no pair. -/
theorem bigrams_keys_adjacent (s : GoString) :
    (∀ k : bigram, k ∈ (bigrams s).keys ↔
      ∃ i, 1 ≤ i ∧ i < (runes s).length ∧
        (runes s)[i - 1]? = some k.r0 ∧ (runes s)[i]? = some k.r1) ∧
      (bigrams s).keys.Nodup ∧
      ((runes s).length ≤ 1 → bigrams s = GoMap.empty) ∧
      (runes strEAcute = [0xE9] ∧ bigrams strEAcute = GoMap.empty) := by
  refine ⟨fun k => ?_, (bigrams_spec s).1.1, ?_, by decide⟩
  · rw [(bigrams_spec s).2 k, mem_adjacent_iff]
  · intro h
    have := (bigrams_len_eq_zero_iff s).mpr (by unfold charCount; omega)
    have he : (bigrams s).entries = [] := List.length_eq_zero.mp this
    cases hb : bigrams s
    rw [hb] at he
    simp only at he
    rw [he]; rfl

/-- C5: the pair of empty strings: both bigram sets are empty, `diceCoefficient` divides
zero by zero and returns not-a-number in either order of the arguments, and `==` between
the two results is false. -/
theorem diceCoefficient_symm_nan :
    diceCoefficient [] [] = Float64.nan ∧
      Float64.eq (diceCoefficient [] []) (diceCoefficient [] []) = false := by
  have h : diceCoefficient [] [] = Float64.nan := diceCoefficient_nan [] [] (by decide)
  rw [h]
  exact ⟨rfl, rfl⟩

/-- C6: a string of at least two characters has coefficient exactly 1.0 with itself. -/
theorem diceCoefficient_self (s : GoString) (h : 2 ≤ charCount s) :
    diceCoefficient s s = Float64.fin 1 ∧
      Float64.eq (diceCoefficient s s) (Float64.fin 1) = true := by
  have hne : (bigramSet s).card + (bigramSet s).card ≠ 0 :=
    (card_sum_ne_zero_iff s s).mpr (by omega)
  obtain ⟨r, hr, _, _, _, h1, _⟩ := diceCoefficient_value s s hne
  have : r = 1 := h1.mpr (by rw [Finset.inter_self]; omega)
  subst this
  rw [hr]
  exact ⟨rfl, by simp [Float64.eq]⟩

theorem diceCoefficient_self_witness :
    2 ≤ charCount mitText ∧ diceCoefficient mitText mitText = Float64.fin 1 :=
  ⟨by decide, (diceCoefficient_self mitText (by decide)).1⟩

/-- C7: unless both strings are shorter than two characters, the coefficient is a finite
value between 0.0 and 1.0 inclusive. -/
theorem diceCoefficient_bounds (a b : GoString)
    (h : ¬ (charCount a < 2 ∧ charCount b < 2)) :
    Float64.le (Float64.fin 0) (diceCoefficient a b) = true ∧
      Float64.le (diceCoefficient a b) (Float64.fin 1) = true := by
  obtain ⟨r, hr, h0, h1, _⟩ := diceCoefficient_value a b ((card_sum_ne_zero_iff a b).mpr h)
  rw [hr]
  simp only [Float64.le, Float64.lt, Float64.eq, Bool.or_eq_true, decide_eq_true_eq]
  exact ⟨lt_or_eq_of_le h0, lt_or_eq_of_le h1⟩

theorem diceCoefficient_bounds_witness :
    ¬ (charCount strAAB < 2 ∧ charCount [] < 2) ∧
      Float64.le (diceCoefficient strAAB []) (Float64.fin 1) = true :=
  ⟨by decide, (diceCoefficient_bounds strAAB [] (by decide)).2⟩

/-- C8: when at least one bigram set is not empty, the coefficient is 1.0 exactly when
the two maps have the same set of keys; repeated pairs count once, so `"aaaa"` and `"aa"`
score 1.0. -/
theorem diceCoefficient_eq_one_iff (a b : GoString)
    (h : (bigrams a).len ≠ 0 ∨ (bigrams b).len ≠ 0) :
    (Float64.eq (diceCoefficient a b) (Float64.fin 1) = true ↔ bigramSet a = bigramSet b) ∧
      (strAAAA ≠ strAA ∧
        Float64.eq (diceCoefficient strAAAA strAA) (Float64.fin 1) = true) := by
  have key : ∀ a b : GoString, (bigrams a).len ≠ 0 ∨ (bigrams b).len ≠ 0 →
      (Float64.eq (diceCoefficient a b) (Float64.fin 1) = true ↔
        bigramSet a = bigramSet b) := by
    intro a b h
    obtain ⟨r, hr, _, _, _, h1, _⟩ := diceCoefficient_value a b (card_sum_ne_zero_of_len a b h)
    rw [hr]
    simp only [Float64.eq, decide_eq_true_eq, h1]
    have hl : (bigramSet a ∩ bigramSet b).card ≤ (bigramSet a).card :=
      Finset.card_le_card Finset.inter_subset_left
    have hr' : (bigramSet a ∩ bigramSet b).card ≤ (bigramSet b).card :=
      Finset.card_le_card Finset.inter_subset_right
    constructor
    · intro h2
      have ea : bigramSet a ∩ bigramSet b = bigramSet a :=
        Finset.eq_of_subset_of_card_le Finset.inter_subset_left (by omega)
      have eb : bigramSet a ∩ bigramSet b = bigramSet b :=
        Finset.eq_of_subset_of_card_le Finset.inter_subset_right (by omega)
      rw [← ea]; nth_rewrite 2 [← eb]; rfl
    · intro h2
      rw [h2, Finset.inter_self]; omega
  refine ⟨key a b h, by decide, ?_⟩
  exact (key strAAAA strAA (by decide)).mpr (by decide)

theorem diceCoefficient_eq_one_iff_witness :
    ((bigrams strAAB).len ≠ 0 ∨ (bigrams strAB).len ≠ 0) ∧
      (Float64.eq (diceCoefficient strAAB strAB) (Float64.fin 1) = true ↔
        bigramSet strAAB = bigramSet strAB) :=
  ⟨by decide, (diceCoefficient_eq_one_iff strAAB strAB (by decide)).1⟩

/-- C9: when at least one bigram set is not empty, the coefficient is 0.0 exactly when
the two maps have no key in common. -/
theorem diceCoefficient_eq_zero_iff (a b : GoString)
    (h : (bigrams a).len ≠ 0 ∨ (bigrams b).len ≠ 0) :
    Float64.eq (diceCoefficient a b) (Float64.fin 0) = true ↔
      bigramSet a ∩ bigramSet b = ∅ := by
  obtain ⟨r, hr, _, _, h0, _⟩ := diceCoefficient_value a b (card_sum_ne_zero_of_len a b h)
  rw [hr]
  simp only [Float64.eq, decide_eq_true_eq, h0, Finset.card_eq_zero]

theorem diceCoefficient_eq_zero_iff_witness :
    ((bigrams strAAB).len ≠ 0 ∨ (bigrams []).len ≠ 0) ∧
      (Float64.eq (diceCoefficient strAAB []) (Float64.fin 0) = true ↔
        bigramSet strAAB ∩ bigramSet [] = ∅) :=
  ⟨by decide, diceCoefficient_eq_zero_iff strAAB [] (by decide)⟩

/-! ## Sorting -/

theorem insertLeft_perm {α : Type} (less : α → α → Bool) (x : α) (l : List α) :
    (insertLeft less x l).Perm (x :: l) := by
  induction l with
  | nil => exact List.Perm.refl _
  | cons p ps ih =>
    simp only [insertLeft]
    split_ifs
    · exact (List.Perm.cons p ih).trans (List.Perm.swap x p ps)
    · exact List.Perm.refl _

theorem insertLeft_sorted {α : Type} (less : α → α → Bool) (x : α) (l : List α)
    (hord : TransitiveOrdering less (x :: l))
    (hl : l.Pairwise (fun a b => less a b = false)) :
    (insertLeft less x l).Pairwise (fun a b => less a b = false) := by
  induction l with
  | nil => simp [insertLeft]
  | cons p ps ih =>
    obtain ⟨hirr, htr, hneg⟩ := hord
    rw [List.pairwise_cons] at hl
    have hx : x ∈ x :: p :: ps := List.mem_cons_self _ _
    have hp : p ∈ x :: p :: ps := List.mem_cons_of_mem _ (List.mem_cons_self _ _)
    have hps : ∀ y ∈ ps, y ∈ x :: p :: ps := fun y hy =>
      List.mem_cons_of_mem _ (List.mem_cons_of_mem _ hy)
    simp only [insertLeft]
    split_ifs with hlt
    · rw [List.pairwise_cons]
      constructor
      · intro y hy
        rcases List.mem_cons.mp ((insertLeft_perm less x ps).subset hy) with rfl | hy'
        · by_contra hc
          have hpx : less p y = true := by simpa using hc
          have := htr y hx p hp y hx hlt hpx
          rw [hirr y hx] at this
          exact Bool.false_ne_true this
        · exact hl.1 y hy'
      · apply ih _ hl.2
        refine ⟨fun y hy => hirr y ?_, fun a ha b hb c hc => htr a ?_ b ?_ c ?_,
          fun a ha b hb c hc => hneg a ?_ b ?_ c ?_⟩
        all_goals
          first
          | (rcases List.mem_cons.mp hy with rfl | h' ; exact hx ; exact hps _ h')
          | (rcases List.mem_cons.mp ha with rfl | h' ; exact hx ; exact hps _ h')
          | (rcases List.mem_cons.mp hb with rfl | h' ; exact hx ; exact hps _ h')
          | (rcases List.mem_cons.mp hc with rfl | h' ; exact hx ; exact hps _ h')
    · rw [List.pairwise_cons]
      refine ⟨?_, List.pairwise_cons.mpr hl⟩
      intro y hy
      rcases List.mem_cons.mp hy with rfl | hy'
      · simpa using hlt
      · exact hneg x hx p hp y (hps y hy') (by simpa using hlt) (hl.1 y hy')

theorem TransitiveOrdering.subset {α : Type} {less : α → α → Bool} {l l' : List α}
    (h : TransitiveOrdering less l) (hsub : ∀ x ∈ l', x ∈ l) : TransitiveOrdering less l' :=
  ⟨fun x hx => h.1 x (hsub x hx),
    fun x hx y hy z hz => h.2.1 x (hsub x hx) y (hsub y hy) z (hsub z hz),
    fun x hx y hy z hz => h.2.2 x (hsub x hx) y (hsub y hy) z (hsub z hz)⟩

theorem insertionSort_fold {α : Type} (less : α → α → Bool) (l acc : List α)
    (hord : TransitiveOrdering less (acc ++ l))
    (hacc : acc.Pairwise (fun a b => less a b = false)) :
    (l.foldl (fun sortedRev x => insertLeft less x sortedRev) acc).Perm (l.reverse ++ acc) ∧
      (l.foldl (fun sortedRev x => insertLeft less x sortedRev) acc).Pairwise
        (fun a b => less a b = false) := by
  induction l generalizing acc with
  | nil => exact ⟨by simp, hacc⟩
  | cons x xs ih =>
    rw [List.foldl_cons]
    have hperm := insertLeft_perm less x acc
    have hsorted := insertLeft_sorted less x acc
      (hord.subset (by
        intro y hy
        rcases List.mem_cons.mp hy with rfl | hy'
        · simp
        · simp [hy'])) hacc
    have := ih (insertLeft less x acc)
      (hord.subset (by
        intro y hy
        rcases List.mem_append.mp hy with h1 | h1
        · rcases List.mem_cons.mp (hperm.subset h1) with rfl | h2
          · simp
          · simp [h2]
        · simp [h1])) hsorted
    refine ⟨?_, this.2⟩
    refine this.1.trans ?_
    rw [List.reverse_cons, List.append_assoc]
    exact List.Perm.append_left _ (by simpa using hperm)

/-- Insertion sort only permutes its input, whatever `less` is. -/
theorem insertionSort_perm {α : Type} (less : α → α → Bool) (l : List α) :
    (insertionSort less l).Perm l := by
  unfold insertionSort
  refine (List.reverse_perm _).trans ?_
  suffices h : ∀ acc : List α,
      (l.foldl (fun sortedRev x => insertLeft less x sortedRev) acc).Perm (l.reverse ++ acc) by
    have h0 := h []
    rw [List.append_nil] at h0
    exact h0.trans (List.reverse_perm l)
  induction l with
  | nil => intro acc; simp
  | cons x xs ih =>
    intro acc
    rw [List.foldl_cons, List.reverse_cons, List.append_assoc]
    exact (ih _).trans (List.Perm.append_left _ (by simpa using insertLeft_perm less x acc))

/-- Go's insertion sort meets the contract of `sort.Sort`. -/
theorem insertionSort_contract {α : Type} (less : α → α → Bool) :
    SortContract less (insertionSort less) := by
  refine ⟨insertionSort_perm less, ?_⟩
  intro l hord
  unfold insertionSort
  rw [List.pairwise_reverse]
  exact (insertionSort_fold less l [] (by simpa using hord) List.Pairwise.nil).2

/-! ## `Reader` -/

theorem foldl_append_singleton {α β : Type} (f : α → β) (l : List α) (acc : List β) :
    l.foldl (fun r x => r ++ [f x]) acc = acc ++ l.map f := by
  induction l generalizing acc with
  | nil => simp
  | cons x xs ih => rw [List.foldl_cons, ih]; simp

/-- On a reader that reads without error, `Reader` returns the sorted list of one match
per catalog entry, and no error. -/
theorem Reader_eq (sortSort : List Match → List Match) (licenses : List LicenseData)
    (r : IoReader) (hr : r.err = none) :
    Reader sortSort licenses r =
      (sortSort (licenses.map fun lic =>
        { Coefficient := diceCoefficient lic.Text r.data, License := lic }), none) := by
  unfold Reader ioutilReadAll
  rw [hr]
  simp only
  rw [foldl_append_singleton (fun lic : LicenseData =>
    ({ Coefficient := diceCoefficient lic.Text r.data, License := lic } : Match))]
  simp

/-- Against the empty string, a text of at least two characters scores 0.0. -/
theorem diceCoefficient_empty_right (t : GoString) (h : 2 ≤ charCount t) :
    diceCoefficient t [] = Float64.fin 0 := by
  have hne : (bigramSet t).card + (bigramSet []).card ≠ 0 :=
    (card_sum_ne_zero_iff t []).mpr (by omega)
  obtain ⟨r, hr, _, _, h0, _⟩ := diceCoefficient_value t [] hne
  have he : bigramSet [] = ∅ := by decide
  have : r = 0 := h0.mpr (by rw [he, Finset.inter_empty]; rfl)
  rw [hr, this]

theorem perm_pair {α : Type} (l : List α) (x y : α) (h : l.Perm [x, y]) :
    l = [x, y] ∨ l = [y, x] := by
  have hlen := h.length_eq
  match l, hlen with
  | [u, v], _ =>
    have hu : u ∈ [x, y] := h.subset (List.mem_cons_self _ _)
    simp only [List.mem_cons, List.mem_singleton, List.not_mem_nil, or_false] at hu
    rcases hu with rfl | rfl
    · have := List.perm_singleton.mp ((List.perm_cons u).mp h)
      simp only [List.cons.injEq, and_true] at this
      left; rw [this]
    · have h2 : [u, v].Perm [u, x] := h.trans (List.Perm.swap u x [])
      have := List.perm_singleton.mp ((List.perm_cons u).mp h2)
      simp only [List.cons.injEq, and_true] at this
      right; rw [this]

/-- Among matches whose coefficients are all finite, `Less` is a transitive ordering. -/
theorem less_transitiveOrdering (l : List Match)
    (hfin : ∀ m ∈ l, ∃ q : ℚ, m.Coefficient = Float64.fin q) :
    TransitiveOrdering matchSorter.Less l := by
  refine ⟨?_, ?_, ?_⟩
  · intro x hx
    obtain ⟨q, hq⟩ := hfin x hx
    simp [matchSorter.Less, Float64.gt, Float64.lt, hq]
  · intro x hx y hy z hz
    obtain ⟨qx, hqx⟩ := hfin x hx
    obtain ⟨qy, hqy⟩ := hfin y hy
    obtain ⟨qz, hqz⟩ := hfin z hz
    simp only [matchSorter.Less, Float64.gt, Float64.lt, hqx, hqy, hqz, decide_eq_true_eq]
    intro h1 h2
    exact lt_trans h2 h1
  · intro x hx y hy z hz
    obtain ⟨qx, hqx⟩ := hfin x hx
    obtain ⟨qy, hqy⟩ := hfin y hy
    obtain ⟨qz, hqz⟩ := hfin z hz
    simp only [matchSorter.Less, Float64.gt, Float64.lt, hqx, hqy, hqz, decide_eq_false_iff_not,
      not_lt]
    intro h1 h2
    exact le_trans h1 h2

/-- When no comparison is between two strings that are both shorter than two characters,
every coefficient is finite and the result of `Reader` is non-increasing in
`Coefficient`. -/
theorem Reader_sorted_of_finite (sortSort : List Match → List Match)
    (hs : SortContract matchSorter.Less sortSort) (licenses : List LicenseData)
    (r : IoReader) (hr : r.err = none)
    (hlen : ∀ lic ∈ licenses, ¬ (charCount lic.Text < 2 ∧ charCount r.data < 2)) :
    (Reader sortSort licenses r).1.Pairwise
      (fun mi mj => Float64.ge mi.Coefficient mj.Coefficient = true) := by
  rw [Reader_eq sortSort licenses r hr]
  simp only
  set l := licenses.map fun lic =>
    ({ Coefficient := diceCoefficient lic.Text r.data, License := lic } : Match) with hl
  have hfin : ∀ m ∈ l, ∃ q : ℚ, m.Coefficient = Float64.fin q := by
    intro m hm
    rw [hl, List.mem_map] at hm
    obtain ⟨lic, hlic, rfl⟩ := hm
    obtain ⟨q, hq, _⟩ := diceCoefficient_value lic.Text r.data
      ((card_sum_ne_zero_iff _ _).mpr (hlen lic hlic))
    exact ⟨q, hq⟩
  have hsorted := hs.sorted l (less_transitiveOrdering l hfin)
  have hmem : ∀ m ∈ sortSort l, m ∈ l := fun m hm => (hs.perm l).subset hm
  refine List.Pairwise.imp_of_mem ?_ hsorted
  intro mi mj hi hj hless
  obtain ⟨qi, hqi⟩ := hfin mi (hmem mi hi)
  obtain ⟨qj, hqj⟩ := hfin mj (hmem mj hj)
  simp only [matchSorter.Less, Float64.gt, Float64.lt, hqi, hqj, decide_eq_false_iff_not,
    not_lt] at hless
  simp only [Float64.ge, Float64.le, Float64.lt, Float64.eq, hqi, hqj, Bool.or_eq_true,
    decide_eq_true_eq]
  exact lt_or_eq_of_le hless

/-- C3: a catalog of two records, the first with an empty text and the second with the
text `"ab"`, scored against the empty input: the first coefficient is zero divided by
zero, not-a-number, and whichever way `sort.Sort` permutes the two matches the first
result is not `>=` the second. -/
theorem Reader_order_nan (sortSort : List Match → List Match)
    (hs : SortContract matchSorter.Less sortSort) :
    ∃ m0 m1 : Match,
      Reader sortSort [licenseOfText [], licenseOfText strAB] (readerOf []) =
        ([m0, m1], none) ∧
      Float64.ge m0.Coefficient m1.Coefficient = false := by
  rw [Reader_eq _ _ _ rfl]
  have h0 : diceCoefficient (licenseOfText []).Text (readerOf []).data = Float64.nan :=
    diceCoefficient_nan [] [] (by decide)
  have h1 : diceCoefficient (licenseOfText strAB).Text (readerOf []).data = Float64.fin 0 :=
    diceCoefficient_empty_right strAB (by decide)
  simp only [List.map_cons, List.map_nil, h0, h1]
  rcases perm_pair _ _ _ (hs.perm
    [{ Coefficient := Float64.nan, License := licenseOfText [] },
     { Coefficient := Float64.fin 0, License := licenseOfText strAB }]) with h | h
  · exact ⟨{ Coefficient := Float64.nan, License := licenseOfText [] },
      { Coefficient := Float64.fin 0, License := licenseOfText strAB }, by rw [h], rfl⟩
  · exact ⟨{ Coefficient := Float64.fin 0, License := licenseOfText strAB },
      { Coefficient := Float64.nan, License := licenseOfText [] }, by rw [h], rfl⟩

theorem Reader_order_nan_witness :
    SortContract matchSorter.Less (insertionSort matchSorter.Less) ∧
      ∃ m0 m1 : Match,
        Reader (insertionSort matchSorter.Less) [licenseOfText [], licenseOfText strAB]
          (readerOf []) = ([m0, m1], none) ∧
        Float64.ge m0.Coefficient m1.Coefficient = false :=
  ⟨insertionSort_contract _, Reader_order_nan _ (insertionSort_contract _)⟩

/-- C4: for every catalog and every input read without error, the empty one included,
`Reader` returns no error and exactly one match per catalog entry: the result has the
length of the catalog and is a permutation of the list of each entry paired with its own
coefficient against the input. -/
theorem Reader_complete (sortSort : List Match → List Match)
    (hs : SortContract matchSorter.Less sortSort) (licenses : List LicenseData)
    (r : IoReader) (hr : r.err = none) :
    (Reader sortSort licenses r).2 = none ∧
      (Reader sortSort licenses r).1.length = licenses.length ∧
      (Reader sortSort licenses r).1.Perm (licenses.map fun lic =>
        { Coefficient := diceCoefficient lic.Text r.data, License := lic }) := by
  rw [Reader_eq sortSort licenses r hr]
  refine ⟨rfl, ?_, hs.perm _⟩
  simp only
  rw [(hs.perm _).length_eq, List.length_map]

theorem Reader_complete_witness :
    SortContract matchSorter.Less (insertionSort matchSorter.Less) ∧
      (readerOf []).err = none ∧
      (Reader (insertionSort matchSorter.Less) [licenseOfText mitText, licenseOfText strAB]
        (readerOf [])).1.length = 2 :=
  ⟨insertionSort_contract _, rfl,
    (Reader_complete _ (insertionSort_contract _)
      [licenseOfText mitText, licenseOfText strAB] (readerOf []) rfl).2.1⟩

/-- C10: with a catalog of a single record whose text has at least two characters,
scoring the empty input returns the single match of that record with coefficient exactly
0.0, a finite value; and `diceCoefficient t ""` is 0.0 for every text `t` of at least two
characters. -/
theorem Reader_empty_input (sortSort : List Match → List Match)
    (hs : SortContract matchSorter.Less sortSort) (lic : LicenseData)
    (h : 2 ≤ charCount lic.Text) :
    Reader sortSort [lic] (readerOf []) =
        ([{ Coefficient := Float64.fin 0, License := lic }], none) ∧
      ∀ t : GoString, 2 ≤ charCount t →
        diceCoefficient t [] = Float64.fin 0 ∧
          Float64.eq (diceCoefficient t []) (Float64.fin 0) = true := by
  constructor
  · rw [Reader_eq _ _ _ rfl]
    have h0 : diceCoefficient lic.Text (readerOf []).data = Float64.fin 0 :=
      diceCoefficient_empty_right lic.Text h
    simp only [List.map_cons, List.map_nil, h0]
    rw [List.perm_singleton.mp (hs.perm _)]
  · intro t ht
    rw [diceCoefficient_empty_right t ht]
    exact ⟨rfl, by simp [Float64.eq]⟩

theorem Reader_empty_input_witness :
    SortContract matchSorter.Less (insertionSort matchSorter.Less) ∧
      2 ≤ charCount (licenseOfText mitText).Text ∧
      Reader (insertionSort matchSorter.Less) [licenseOfText mitText] (readerOf []) =
        ([{ Coefficient := Float64.fin 0, License := licenseOfText mitText }], none) :=
  ⟨insertionSort_contract _, by decide,
    (Reader_empty_input _ (insertionSort_contract _) (licenseOfText mitText) (by decide)).1⟩

/-! ## Facts about `bytes.SplitN` -/

theorem separator_prefix_iff (s : GoString) :
    separator.isPrefixOf s = true ↔ ∃ rest, s = separator ++ rest := by
  rw [List.isPrefixOf_iff_prefix]
  constructor
  · rintro ⟨rest, h⟩; exact ⟨rest, h.symm⟩
  · rintro ⟨rest, h⟩; exact ⟨rest, h.symm⟩

/-- What `bytes.Index` returns for the separator: `-1` when it occurs nowhere, else an
offset at which it stands and after which one occurrence fewer is left. Occurrences of
the separator cannot overlap. -/
theorem bytesIndex_separator (s : GoString) :
    (bytesIndex s separator = -1 ∧ occurrences s separator = 0) ∨
      ∃ m : ℕ, bytesIndex s separator = m ∧
        s = s.take m ++ separator ++ s.drop (m + 4) ∧
        occurrences s separator = 1 + occurrences (s.drop (m + 4)) separator ∧
        ¬ separator <:+: s.take m := by
  induction s with
  | nil => left; decide
  | cons c t ih =>
    by_cases hp : separator.isPrefixOf (c :: t) = true
    · right
      obtain ⟨rest, hrest⟩ := (separator_prefix_iff _).mp hp
      refine ⟨0, by simp [bytesIndex, hp], ?_, ?_, ?_⟩
      · rw [hrest]; simp [separator]
      · rw [hrest]
        simp [separator, occurrences, List.isPrefixOf]
      · simp [separator, List.IsInfix]
    · have hp' : separator.isPrefixOf (c :: t) = false := Bool.eq_false_iff.mpr hp
      rcases ih with ⟨h1, h2⟩ | ⟨m, h1, h2, h3, h4⟩
      · left
        simp [bytesIndex, hp', h1, occurrences, h2]
      · right
        refine ⟨m + 1, ?_, ?_, ?_, ?_⟩
        · simp only [bytesIndex, hp', h1]
          simp
        · simp only [List.take_succ_cons, List.drop_succ_cons, List.cons_append]
          rw [← h2]
        · simp only [occurrences, hp', List.drop_succ_cons]
          simpa using h3
        · rw [List.take_succ_cons, List.infix_cons_iff]
          rintro (hpre | hin)
          · apply hp
            rw [List.isPrefixOf_iff_prefix]
            exact hpre.trans ((List.prefix_cons_inj c).mpr (List.take_prefix m t))
          · exact h4 hin

/-- No occurrence of the separator starts inside a non-empty `pre` that does not contain
it and runs into a separator that follows `pre`. -/
theorem separator_not_straddling (c : UInt8) (p rest : GoString)
    (h : ¬ separator <:+: c :: p) : ¬ separator <+: c :: p ++ separator ++ rest := by
  intro hpre
  apply h
  rcases p with _ | ⟨d, _ | ⟨e, _ | ⟨f, q⟩⟩⟩
  · simp [separator, List.cons_prefix_cons] at hpre
  · simp [separator, List.cons_prefix_cons] at hpre
  · simp [separator, List.cons_prefix_cons] at hpre
  · simp only [separator, List.cons_append, List.cons_prefix_cons] at hpre
    obtain ⟨rfl, rfl, rfl, rfl, _⟩ := hpre
    exact (List.prefix_append separator q).isInfix

theorem bytesIndex_append_separator (pre rest : GoString) (h : ¬ separator <:+: pre) :
    bytesIndex (pre ++ separator ++ rest) separator = pre.length := by
  induction pre with
  | nil => simp [separator, bytesIndex, List.isPrefixOf]
  | cons c p ih =>
    have hp : separator.isPrefixOf (c :: p ++ separator ++ rest) = false := by
      apply Bool.eq_false_iff.mpr
      intro hb
      rw [List.isPrefixOf_iff_prefix] at hb
      exact separator_not_straddling c p rest h hb
    have hp' : separator.isPrefixOf (c :: (p ++ separator ++ rest)) = false := by
      simpa using hp
    have ih' := ih (fun hin => h (hin.trans (List.suffix_cons c p).isInfix))
    have hn : ¬ ((p.length : Int) < 0) := by omega
    show bytesIndex (c :: (p ++ separator ++ rest)) separator = ((p.length + 1 : ℕ) : Int)
    rw [bytesIndex, hp', ih']
    simp [hn]

/-- The split of a file content whose first two separators stand after `pre` and after
`metadata`: exactly these two and what follows. -/
theorem bytesSplitN_of_parts (pre metadata text : GoString)
    (hpre : ¬ separator <:+: pre) (hmeta : ¬ separator <:+: metadata) :
    bytesSplitN (pre ++ separator ++ metadata ++ separator ++ text) separator 3 =
      [pre, metadata, text] := by
  have h1 : bytesIndex (pre ++ separator ++ metadata ++ separator ++ text) separator =
      pre.length := by
    have := bytesIndex_append_separator pre (metadata ++ separator ++ text) hpre
    simpa [List.append_assoc] using this
  have h2 : bytesIndex (metadata ++ separator ++ text) separator = metadata.length :=
    bytesIndex_append_separator metadata text hmeta
  have hsep : separator.length = 4 := rfl
  have hd1 : (pre ++ separator ++ metadata ++ separator ++ text).drop (pre.length + 4) =
      metadata ++ separator ++ text := by
    have : pre ++ separator ++ metadata ++ separator ++ text =
        (pre ++ separator) ++ (metadata ++ separator ++ text) := by
      simp [List.append_assoc]
    rw [this, List.drop_append_eq_append_drop]
    simp [hsep]
  have hd2 : (metadata ++ separator ++ text).drop (metadata.length + 4) = text := by
    have : metadata ++ separator ++ text = (metadata ++ separator) ++ text := rfl
    rw [this, List.drop_append_eq_append_drop]
    simp [hsep]
  have ht1 : (pre ++ separator ++ metadata ++ separator ++ text).take pre.length = pre := by
    simp [List.append_assoc]
  have ht2 : (metadata ++ separator ++ text).take metadata.length = metadata := by
    simp [List.append_assoc]
  have hn : ∀ n : ℕ, ¬ ((n : Int) < 0) := fun n => by omega
  simp only [bytesSplitN, genSplitLoop, h1, h2, hsep, Int.toNat_ofNat, hd1, hd2, ht1, ht2]
  simp [hn]

/-- The split of any file content at the separator, three fragments at most: fewer than
three fragments when the separator occurs fewer than two times, and otherwise the parts
around its first two occurrences. -/
theorem bytesSplitN_separator (s : GoString) :
    (occurrences s separator < 2 ∧ (bytesSplitN s separator 3).length ≠ 3) ∨
      (2 ≤ occurrences s separator ∧ ∃ pre metadata text,
        s = pre ++ separator ++ metadata ++ separator ++ text ∧
        ¬ separator <:+: pre ∧ ¬ separator <:+: metadata ∧
        bytesSplitN s separator 3 = [pre, metadata, text]) := by
  rcases bytesIndex_separator s with ⟨h1, h2⟩ | ⟨m, h1, h2, h3, h4⟩
  · left
    refine ⟨by omega, ?_⟩
    simp [bytesSplitN, genSplitLoop, h1]
  · rcases bytesIndex_separator (s.drop (m + 4)) with ⟨k1, k2⟩ | ⟨k, k1, k2, k3, k4⟩
    · left
      refine ⟨by omega, ?_⟩
      have hsep : separator.length = 4 := rfl
      have hn : ∀ n : ℕ, ¬ ((n : Int) < 0) := fun n => by omega
      simp [bytesSplitN, genSplitLoop, h1, hsep, k1, hn]
    · right
      refine ⟨by omega, s.take m, (s.drop (m + 4)).take k, (s.drop (m + 4)).drop (k + 4),
        ?_, h4, k4, ?_⟩
      · have : s.take m ++ separator ++ (s.drop (m + 4)).take k ++ separator ++
            (s.drop (m + 4)).drop (k + 4) =
            s.take m ++ separator ++ ((s.drop (m + 4)).take k ++ separator ++
              (s.drop (m + 4)).drop (k + 4)) := by simp [List.append_assoc]
        rw [this, ← k2, ← h2]
      · have hsep : separator.length = 4 := rfl
        have hn : ∀ n : ℕ, ¬ ((n : Int) < 0) := fun n => by omega
        simp [bytesSplitN, genSplitLoop, h1, hsep, k1, hn]

/-! ## Facts about `readLicenseData` -/

/-- The message of a wrapped YAML error is not the message of the malformed-record error. -/
theorem errorsWrapf_ne_want (err : Error) (base : String) :
    errorsWrapf err ("failed to read " ++ base) ≠ errorsNew "want 3 fragments" := by
  intro h
  have := congrArg String.data h
  simp [errorsWrapf, errorsNew, String.data_append] at this

/-- The part of `readLicenseData` after the split, on the three fragments. -/
theorem readLicenseData_of_parts (w : World) (path : String) (pre metadata text : GoString)
    (hpre : ¬ separator <:+: pre) (hmeta : ¬ separator <:+: metadata)
    (hread : w.ioutilReadFile path =
      (pre ++ separator ++ metadata ++ separator ++ text, none)) :
    readLicenseData w path =
      match w.yamlUnmarshal metadata zeroLicenseData with
      | (_, some err) =>
        (none, some (errorsWrapf err ("failed to read " ++ w.filepathBase path)))
      | (lic, none) => (some { lic with Text := text }, none) := by
  unfold readLicenseData
  rw [hread]
  simp only [bytesSplitN_of_parts pre metadata text hpre hmeta]
  simp

/-- With fewer than two separators `readLicenseData` stops at the split. -/
theorem readLicenseData_of_few (w : World) (path : String) (txt : GoString)
    (hread : w.ioutilReadFile path = (txt, none)) (hocc : occurrences txt separator < 2) :
    readLicenseData w path = (none, some (errorsNew "want 3 fragments")) := by
  rcases bytesSplitN_separator txt with ⟨_, hlen⟩ | ⟨h2, _⟩
  · unfold readLicenseData
    rw [hread]
    simp only
    rw [if_pos hlen]
  · omega

/-- Source of the two possible shapes of a result of `readLicenseData`: a nil record with
an error, or a record with a nil error. -/
theorem readLicenseData_shape (w : World) (path : String) :
    (∃ err, readLicenseData w path = (none, some err)) ∨
      (∃ lic, readLicenseData w path = (some lic, none)) := by
  unfold readLicenseData
  rcases hr : w.ioutilReadFile path with ⟨txt, _ | err⟩
  · simp only
    split_ifs
    · exact Or.inl ⟨_, rfl⟩
    · rcases hy : w.yamlUnmarshal ((bytesSplitN txt separator 3).getD 1 []) zeroLicenseData
        with ⟨lic, _ | err⟩
      · exact Or.inr ⟨_, rfl⟩
      · exact Or.inl ⟨_, rfl⟩
  · exact Or.inl ⟨_, rfl⟩

/-- What a successful `readLicenseData` has done: read a content with at least two
separators, decoded the bytes between the first two into a fresh record without error,
and stored everything after the second as `Text`. -/
theorem readLicenseData_of_success (w : World) (path : String) (lic : LicenseData)
    (h : readLicenseData w path = (some lic, none)) :
    ∃ pre metadata parsed,
      w.ioutilReadFile path =
        (pre ++ separator ++ metadata ++ separator ++ lic.Text, none) ∧
      ¬ separator <:+: pre ∧ ¬ separator <:+: metadata ∧
      w.yamlUnmarshal metadata zeroLicenseData = (parsed, none) ∧
      lic = { parsed with Text := lic.Text } := by
  rcases hr : w.ioutilReadFile path with ⟨txt, _ | err⟩
  · rcases bytesSplitN_separator txt with ⟨hocc, _⟩ | ⟨_, pre, metadata, text, rfl, hpre, hmeta, _⟩
    · rw [readLicenseData_of_few w path txt hr hocc] at h
      simp at h
    · rw [readLicenseData_of_parts w path pre metadata text hpre hmeta hr] at h
      rcases hy : w.yamlUnmarshal metadata zeroLicenseData with ⟨parsed, _ | err⟩
      · rw [hy] at h
        simp only [Prod.mk.injEq, Option.some.injEq, and_true] at h
        subst h
        exact ⟨pre, metadata, parsed, rfl, hpre, hmeta, hy, rfl⟩
      · rw [hy] at h
        simp at h
  · unfold readLicenseData at h
    rw [hr] at h
    simp at h

/-- C11: a catalog file that is read and in which the separator `"---\n"` occurs zero
times or exactly once makes `readLicenseData` fail with the error `want 3 fragments` and
return no record, whatever else the content holds. -/
theorem readLicenseData_want_three (w : World) (path : String) (txt : GoString)
    (hread : w.ioutilReadFile path = (txt, none))
    (hocc : occurrences txt separator = 0 ∨ occurrences txt separator = 1) :
    readLicenseData w path = (none, some (errorsNew "want 3 fragments")) ∧
      (readLicenseData w path).1 = none ∧
      (readLicenseData w path).2 = some "want 3 fragments" := by
  have h := readLicenseData_of_few w path txt hread (by omega)
  rw [h]
  exact ⟨rfl, rfl, rfl⟩

theorem readLicenseData_want_three_witness :
    (worldOf [("a.txt", fileOneSeparator)]).ioutilReadFile "a.txt" = (fileOneSeparator, none) ∧
      (occurrences fileOneSeparator separator = 0 ∨
        occurrences fileOneSeparator separator = 1) ∧
      readLicenseData (worldOf [("a.txt", fileOneSeparator)]) "a.txt" =
        (none, some (errorsNew "want 3 fragments")) :=
  ⟨rfl, Or.inr (by decide),
    (readLicenseData_want_three (worldOf [("a.txt", fileOneSeparator)]) "a.txt"
      fileOneSeparator rfl (Or.inr (by decide))).1⟩

/-- C12, as stated, fails: the content `"---\n---\n---\n"` holds the separator three times
and loads without error; the third separator is the text of the record. -/
theorem readLicenseData_three_separators :
    occurrences fileThreeSeparators separator = 3 ∧
      readLicenseData (worldOf [("a.txt", fileThreeSeparators)]) "a.txt" =
        (some (licenseOfText separator), none) ∧
      readLicenseData (worldOf [("a.txt", fileThreeSeparators)]) "a.txt" ≠
        (none, some (errorsNew "want 3 fragments")) := by
  have h : readLicenseData (worldOf [("a.txt", fileThreeSeparators)]) "a.txt" =
      (some (licenseOfText separator), none) := rfl
  refine ⟨by decide, h, ?_⟩
  rw [h]
  simp

/-- C12, amended: on a content that is read, `readLicenseData` fails with the error
`want 3 fragments` exactly when the separator occurs fewer than two times. With two or
more occurrences the content is cut at the first two of them only: the third fragment is
all that follows the second, further separators included. -/
theorem readLicenseData_malformed_iff (w : World) (path : String) (txt : GoString)
    (hread : w.ioutilReadFile path = (txt, none)) :
    (readLicenseData w path = (none, some (errorsNew "want 3 fragments")) ↔
        occurrences txt separator < 2) ∧
      (2 ≤ occurrences txt separator → ∃ pre metadata text,
        txt = pre ++ separator ++ metadata ++ separator ++ text ∧
        ¬ separator <:+: pre ∧ ¬ separator <:+: metadata ∧
        bytesSplitN txt separator 3 = [pre, metadata, text]) := by
  rcases bytesSplitN_separator txt with ⟨hocc, _⟩ | ⟨hocc, pre, metadata, text, rfl, hpre, hmeta, hs⟩
  · refine ⟨⟨fun _ => hocc, fun _ => readLicenseData_of_few w path txt hread hocc⟩, ?_⟩
    intro h2
    omega
  · refine ⟨⟨?_, fun h => by omega⟩, fun _ => ⟨pre, metadata, text, rfl, hpre, hmeta, hs⟩⟩
    intro h
    exfalso
    rw [readLicenseData_of_parts w path pre metadata text hpre hmeta hread] at h
    rcases hy : w.yamlUnmarshal metadata zeroLicenseData with ⟨parsed, _ | err⟩
    · rw [hy] at h
      simp at h
    · rw [hy] at h
      simp only [Prod.mk.injEq, Option.some.injEq, true_and] at h
      exact errorsWrapf_ne_want _ _ h

theorem readLicenseData_malformed_iff_witness :
    (worldOf [("a.txt", fileThreeSeparators)]).ioutilReadFile "a.txt" =
        (fileThreeSeparators, none) ∧
      (readLicenseData (worldOf [("a.txt", fileThreeSeparators)]) "a.txt" =
          (none, some (errorsNew "want 3 fragments")) ↔
        occurrences fileThreeSeparators separator < 2) :=
  ⟨rfl, (readLicenseData_malformed_iff (worldOf [("a.txt", fileThreeSeparators)]) "a.txt"
    fileThreeSeparators rfl).1⟩

/-- C13: for `pre` and `metadata` free of the separator, loading the content
`pre ++ "---\n" ++ metadata ++ "---\n" ++ text` hands exactly `metadata` to the YAML
decoder, with a fresh record, and the result is decided by what the decoder returns there:
its error, wrapped, or its record with `Text` set to `text`, byte for byte. `pre` plays no
part. -/
theorem readLicenseData_roundtrip (w : World) (path : String) (pre metadata text : GoString)
    (hpre : ¬ separator <:+: pre) (hmeta : ¬ separator <:+: metadata)
    (hread : w.ioutilReadFile path =
      (pre ++ separator ++ metadata ++ separator ++ text, none)) :
    (readLicenseData w path =
        match w.yamlUnmarshal metadata zeroLicenseData with
        | (_, some err) =>
          (none, some (errorsWrapf err ("failed to read " ++ w.filepathBase path)))
        | (lic, none) => (some { lic with Text := text }, none)) ∧
      (∀ parsed, w.yamlUnmarshal metadata zeroLicenseData = (parsed, none) →
        ∃ lic, readLicenseData w path = (some lic, none) ∧ lic.Text = text ∧
          lic = { parsed with Text := text }) := by
  have h := readLicenseData_of_parts w path pre metadata text hpre hmeta hread
  refine ⟨h, ?_⟩
  intro parsed hy
  rw [hy] at h
  exact ⟨_, h, rfl, rfl⟩

theorem readLicenseData_roundtrip_witness :
    ¬ separator <:+: strAB ∧ ¬ separator <:+: ([] : GoString) ∧
      (worldOf [("a.txt", strAB ++ separator ++ [] ++ separator ++ mitText)]).ioutilReadFile
          "a.txt" = (strAB ++ separator ++ [] ++ separator ++ mitText, none) ∧
      ∃ lic, readLicenseData
          (worldOf [("a.txt", strAB ++ separator ++ [] ++ separator ++ mitText)]) "a.txt" =
          (some lic, none) ∧ lic.Text = mitText :=
  ⟨by decide, by decide, rfl,
    let ⟨lic, h1, h2, _⟩ :=
      (readLicenseData_roundtrip
        (worldOf [("a.txt", strAB ++ separator ++ [] ++ separator ++ mitText)]) "a.txt"
        strAB [] mitText (by decide) (by decide) rfl).2 zeroLicenseData rfl
    ⟨lic, h1, h2⟩⟩

/-- C14, as stated, fails: the content `"---\n---\n"` loads without error and the record
returned has an empty `SpdxID` and an empty `Text`. -/
theorem readLicenseData_empty_fields :
    readLicenseData (worldOf [("a.txt", fileTwoSeparators)]) "a.txt" =
        (some zeroLicenseData, none) ∧
      zeroLicenseData.SpdxID = [] ∧ zeroLicenseData.Text = [] :=
  ⟨rfl, rfl, rfl⟩

/-- C14, amended: when `readLicenseData` succeeds, the `Text` of the record is the literal
remainder of the content after the second separator and the other fields, `SpdxID`
included, are those the YAML decoder produced from the bytes between the first two
separators; neither is checked, and both may be empty. -/
theorem readLicenseData_success_fields (w : World) (path : String) (lic : LicenseData)
    (h : readLicenseData w path = (some lic, none)) :
    ∃ pre metadata parsed,
      w.ioutilReadFile path =
        (pre ++ separator ++ metadata ++ separator ++ lic.Text, none) ∧
      ¬ separator <:+: pre ∧ ¬ separator <:+: metadata ∧
      w.yamlUnmarshal metadata zeroLicenseData = (parsed, none) ∧
      lic.SpdxID = parsed.SpdxID ∧ lic = { parsed with Text := lic.Text } := by
  obtain ⟨pre, metadata, parsed, h1, h2, h3, h4, h5⟩ := readLicenseData_of_success w path lic h
  refine ⟨pre, metadata, parsed, h1, h2, h3, h4, ?_, h5⟩
  rw [h5]

theorem readLicenseData_success_fields_witness :
    readLicenseData (worldOf [("a.txt", separator ++ separator ++ mitText)]) "a.txt" =
        (some (licenseOfText mitText), none) ∧
      ∃ pre metadata parsed,
        (worldOf [("a.txt", separator ++ separator ++ mitText)]).ioutilReadFile "a.txt" =
          (pre ++ separator ++ metadata ++ separator ++ (licenseOfText mitText).Text, none) ∧
        ¬ separator <:+: pre ∧ ¬ separator <:+: metadata ∧
        (worldOf [("a.txt", separator ++ separator ++ mitText)]).yamlUnmarshal metadata
          zeroLicenseData = (parsed, none) ∧
        (licenseOfText mitText).SpdxID = parsed.SpdxID ∧
        licenseOfText mitText = { parsed with Text := (licenseOfText mitText).Text } :=
  ⟨rfl, readLicenseData_success_fields
    (worldOf [("a.txt", separator ++ separator ++ mitText)]) "a.txt" (licenseOfText mitText)
    rfl⟩

/-! ## Facts about `loadAllLicenses` -/

/-- When every file loads, the loop appends the records of the files, in order. -/
theorem loadLoop_of_success (w : World) (files : List String) (licenses : List LicenseData)
    (hload : ∀ f ∈ files, ∃ lic, readLicenseData w f = (some lic, none)) :
    (loadLoop w files licenses).panicked = none ∧
      (loadLoop w files licenses).licenses.map some =
        licenses.map some ++ files.map fun f => (readLicenseData w f).1 := by
  induction files generalizing licenses with
  | nil => simp [loadLoop]
  | cons f fs ih =>
    obtain ⟨lic, hlic⟩ := hload f (List.mem_cons_self _ _)
    have := ih (licenses ++ [lic]) (fun g hg => hload g (List.mem_cons_of_mem _ hg))
    simp only [loadLoop, hlic, Option.toList]
    refine ⟨this.1, ?_⟩
    rw [this.2]
    simp [hlic]

/-- The loop ends without a panic exactly when every file loads. -/
theorem loadLoop_panicked_iff (w : World) (files : List String)
    (licenses : List LicenseData) :
    (loadLoop w files licenses).panicked = none ↔
      ∀ f ∈ files, ∃ lic, readLicenseData w f = (some lic, none) := by
  induction files generalizing licenses with
  | nil => simp [loadLoop]
  | cons f fs ih =>
    rcases readLicenseData_shape w f with ⟨err, he⟩ | ⟨lic, hl⟩
    · simp only [loadLoop, he]
      constructor
      · intro h; simp at h
      · intro h
        obtain ⟨lic, hlic⟩ := h f (List.mem_cons_self _ _)
        rw [he] at hlic
        simp at hlic
    · simp only [loadLoop, hl]
      rw [ih]
      constructor
      · intro h g hg
        rcases List.mem_cons.mp hg with rfl | hg'
        · exact ⟨lic, hl⟩
        · exact h g hg'
      · intro h g hg
        exact h g (List.mem_cons_of_mem _ hg)

/-- After the base path and the list of files are found, `loadAllLicenses` is the loop
over the files. -/
theorem loadAllLicenses_eq (w : World) (licenses : List LicenseData) (base : String)
    (files : List String) (hbase : getBasePath w "" = (base, none))
    (hglob : w.filepathGlob (w.filepathJoin (w.filepathJoin base "_licenses") "*.txt") =
      (files, none)) :
    loadAllLicenses w licenses = loadLoop w files licenses := by
  unfold loadAllLicenses
  rw [hbase]
  simp only
  rw [hglob]

/-- Each of the three causes makes `readLicenseData` fail: a file that cannot be read, a
content with fewer than two separators, a YAML error on the second fragment. -/
theorem readLicenseData_fails (w : World) (path : String) :
    ((w.ioutilReadFile path).2 ≠ none → (readLicenseData w path).2 ≠ none) ∧
      (∀ txt, w.ioutilReadFile path = (txt, none) → occurrences txt separator < 2 →
        (readLicenseData w path).2 ≠ none) ∧
      (∀ pre metadata text, ¬ separator <:+: pre → ¬ separator <:+: metadata →
        w.ioutilReadFile path = (pre ++ separator ++ metadata ++ separator ++ text, none) →
        (w.yamlUnmarshal metadata zeroLicenseData).2 ≠ none →
        (readLicenseData w path).2 ≠ none) := by
  refine ⟨?_, ?_, ?_⟩
  · intro h
    unfold readLicenseData
    rcases hr : w.ioutilReadFile path with ⟨txt, _ | err⟩
    · rw [hr] at h; simp at h
    · simp
  · intro txt hread hocc
    rw [readLicenseData_of_few w path txt hread hocc]
    simp
  · intro pre metadata text hpre hmeta hread hy
    rw [readLicenseData_of_parts w path pre metadata text hpre hmeta hread]
    rcases hy' : w.yamlUnmarshal metadata zeroLicenseData with ⟨parsed, _ | err⟩
    · rw [hy'] at hy; simp at hy
    · simp

/-- C15: when the base path and the files are found and every file loads,
`loadAllLicenses`, run on the empty catalog, ends without a panic and leaves one record per
file, the record of the i-th file at position i. Nothing is merged: the length is the
number of files, whatever their SPDX IDs. -/
theorem loadAllLicenses_catalog (w : World) (base : String) (files : List String)
    (hbase : getBasePath w "" = (base, none))
    (hglob : w.filepathGlob (w.filepathJoin (w.filepathJoin base "_licenses") "*.txt") =
      (files, none))
    (hload : ∀ f ∈ files, ∃ lic, readLicenseData w f = (some lic, none)) :
    (loadAllLicenses w []).panicked = none ∧
      (loadAllLicenses w []).licenses.length = files.length ∧
      (loadAllLicenses w []).licenses.map some =
        files.map fun f => (readLicenseData w f).1 := by
  rw [loadAllLicenses_eq w [] base files hbase hglob]
  have h := loadLoop_of_success w files [] hload
  simp only [List.map_nil, List.nil_append] at h
  refine ⟨h.1, ?_, h.2⟩
  have := congrArg List.length h.2
  simpa using this

theorem loadAllLicenses_catalog_witness :
    getBasePath (worldOf [("a.txt", fileTwoSeparators), ("b.txt", fileTwoSeparators)]) "" =
        ("licenselib", none) ∧
      (loadAllLicenses
        (worldOf [("a.txt", fileTwoSeparators), ("b.txt", fileTwoSeparators)]) []).licenses.length
        = 2 ∧
      loadAllLicenses (worldOf [("a.txt", fileTwoSeparators), ("b.txt", fileTwoSeparators)]) [] =
        { panicked := none, licenses := [zeroLicenseData, zeroLicenseData] } :=
  ⟨rfl,
    (loadAllLicenses_catalog
      (worldOf [("a.txt", fileTwoSeparators), ("b.txt", fileTwoSeparators)]) "licenselib"
      ["a.txt", "b.txt"] rfl rfl
      (fun f hf => by
        simp only [List.mem_cons, List.mem_singleton, List.not_mem_nil, or_false] at hf
        rcases hf with rfl | rfl
        · exact ⟨zeroLicenseData, rfl⟩
        · exact ⟨zeroLicenseData, rfl⟩)).2.1,
    rfl⟩

/-- C16: when the base path and the files are found, `loadAllLicenses` panics as soon as
one file fails in `readLicenseData`, and it ends without a panic exactly when every file
loads. -/
theorem loadAllLicenses_fail_fast (w : World) (licenses : List LicenseData) (base : String)
    (files : List String) (hbase : getBasePath w "" = (base, none))
    (hglob : w.filepathGlob (w.filepathJoin (w.filepathJoin base "_licenses") "*.txt") =
      (files, none)) :
    ((∃ f ∈ files, (readLicenseData w f).2 ≠ none) →
        ∃ msg, (loadAllLicenses w licenses).panicked = some msg) ∧
      ((loadAllLicenses w licenses).panicked = none ↔
        ∀ f ∈ files, ∃ lic, readLicenseData w f = (some lic, none)) := by
  rw [loadAllLicenses_eq w licenses base files hbase hglob]
  refine ⟨?_, loadLoop_panicked_iff w files licenses⟩
  rintro ⟨f, hf, hfail⟩
  cases hp : (loadLoop w files licenses).panicked with
  | some msg => exact ⟨msg, rfl⟩
  | none =>
    exfalso
    obtain ⟨lic, hlic⟩ := (loadLoop_panicked_iff w files licenses).mp hp f hf
    rw [hlic] at hfail
    exact hfail rfl

theorem loadAllLicenses_fail_fast_witness :
    getBasePath (worldOf [("a.txt", fileTwoSeparators), ("b.txt", fileOneSeparator)]) "" =
        ("licenselib", none) ∧
      (∃ f ∈ ["a.txt", "b.txt"],
        (readLicenseData
          (worldOf [("a.txt", fileTwoSeparators), ("b.txt", fileOneSeparator)]) f).2 ≠ none) ∧
      ∃ msg, (loadAllLicenses
        (worldOf [("a.txt", fileTwoSeparators), ("b.txt", fileOneSeparator)]) []).panicked =
          some msg := by
  have hb : readLicenseData
      (worldOf [("a.txt", fileTwoSeparators), ("b.txt", fileOneSeparator)]) "b.txt" =
      (none, some (errorsNew "want 3 fragments")) := rfl
  have hfail : ∃ f ∈ ["a.txt", "b.txt"],
      (readLicenseData
        (worldOf [("a.txt", fileTwoSeparators), ("b.txt", fileOneSeparator)]) f).2 ≠ none :=
    ⟨"b.txt", by simp, by rw [hb]; simp⟩
  exact ⟨rfl, hfail,
    (loadAllLicenses_fail_fast
      (worldOf [("a.txt", fileTwoSeparators), ("b.txt", fileOneSeparator)]) [] "licenselib"
      ["a.txt", "b.txt"] rfl rfl).1 hfail⟩

/-! ## Errors of `Reader`, the divisor, the iteration order -/

/-- When reading the input fails, `Reader` returns the error and no match. -/
theorem Reader_of_error (sortSort : List Match → List Match) (licenses : List LicenseData)
    (r : IoReader) (err : Error) (hr : r.err = some err) :
    Reader sortSort licenses r = ([], some err) := by
  unfold Reader ioutilReadAll
  rw [hr]

/-- C17: on an input that is read, the empty one included, `Reader` returns a nil error
and a result holding one match per catalog entry, each entry with its own coefficient;
`Reader` returns an error exactly when reading the input fails, the error is that of the
read, and no match is returned with it. -/
theorem Reader_error_iff (sortSort : List Match → List Match)
    (hs : SortContract matchSorter.Less sortSort) (licenses : List LicenseData)
    (r : IoReader) :
    (r.err = none →
        (Reader sortSort licenses r).2 = none ∧
        (Reader sortSort licenses r).1.length = licenses.length ∧
        (Reader sortSort licenses r).1.Perm (licenses.map fun lic =>
          { Coefficient := diceCoefficient lic.Text r.data, License := lic })) ∧
      ((Reader sortSort licenses r).2 ≠ none ↔ r.err ≠ none) ∧
      (r.err ≠ none →
        (Reader sortSort licenses r).1 = [] ∧ (Reader sortSort licenses r).2 = r.err) := by
  cases hr : r.err with
  | none =>
    rw [Reader_eq sortSort licenses r hr]
    refine ⟨fun _ => ⟨rfl, ?_, hs.perm _⟩, by simp, fun h => absurd rfl h⟩
    simp only
    rw [(hs.perm _).length_eq, List.length_map]
  | some err =>
    rw [Reader_of_error sortSort licenses r err hr]
    exact ⟨fun h => by simp at h, by simp, fun _ => ⟨rfl, rfl⟩⟩

theorem Reader_error_iff_witness :
    SortContract matchSorter.Less (insertionSort matchSorter.Less) ∧
      (Reader (insertionSort matchSorter.Less) [licenseOfText mitText]
          { data := strAB, err := some "unexpected EOF" }).1 = [] ∧
      (Reader (insertionSort matchSorter.Less) [licenseOfText mitText]
          { data := strAB, err := some "unexpected EOF" }).2 = some "unexpected EOF" :=
  ⟨insertionSort_contract _,
    (Reader_error_iff _ (insertionSort_contract _) [licenseOfText mitText]
      { data := strAB, err := some "unexpected EOF" }).2.2 (by simp)⟩

/-- C18: the divisor `len(ba)+len(bb)` of `diceCoefficient` is zero exactly when both
strings have fewer than two characters; then the dividend `intersection * 2.0` is zero as
well, the division is zero by zero and the result is not-a-number. As soon as one string
has two characters or more the divisor is strictly positive. -/
theorem diceCoefficient_divisor (a b : GoString) :
    ((bigrams a).len + (bigrams b).len = 0 ↔ charCount a < 2 ∧ charCount b < 2) ∧
      (charCount a < 2 ∧ charCount b < 2 →
        Float64.mul (intersectionLoop (bigrams b) (bigrams a).entries (Float64.fin 0))
            (Float64.fin 2) = Float64.fin 0 ∧
          Float64.ofInt ((bigrams a).len + (bigrams b).len : ℕ) = Float64.fin 0 ∧
          diceCoefficient a b = Float64.nan) ∧
      (¬ (charCount a < 2 ∧ charCount b < 2) →
        0 < (bigrams a).len + (bigrams b).len ∧
          ∃ q : ℚ, 0 < q ∧
            Float64.ofInt ((bigrams a).len + (bigrams b).len : ℕ) = Float64.fin q) := by
  have hiff : (bigrams a).len + (bigrams b).len = 0 ↔ charCount a < 2 ∧ charCount b < 2 := by
    rw [← bigrams_len_eq_zero_iff, ← bigrams_len_eq_zero_iff]
    omega
  have hzero : Float64.round 0 = Float64.fin 0 := by
    have := Float64.round_natCast 0 (by norm_num)
    simpa using this
  refine ⟨hiff, ?_, ?_⟩
  · intro h
    have hsum := hiff.mpr h
    have ha : (bigrams a).len = 0 := by omega
    have hentries : (bigrams a).entries = [] := List.length_eq_zero.mp ha
    refine ⟨?_, ?_, ?_⟩
    · rw [hentries]
      simp [intersectionLoop, Float64.mul, hzero]
    · rw [hsum]
      simpa [Float64.ofInt] using hzero
    · apply diceCoefficient_nan
      rw [bigramSet_card, bigramSet_card]
      exact hsum
  · intro h
    have hpos : 0 < (bigrams a).len + (bigrams b).len := by
      rcases Nat.eq_zero_or_pos ((bigrams a).len + (bigrams b).len) with h0 | h0
      · exact absurd (hiff.mp h0) h
      · exact h0
    refine ⟨hpos, (((bigrams a).len + (bigrams b).len : ℕ) : ℚ), by exact_mod_cast hpos, ?_⟩
    have ha := bigramSet_card_lt a
    have hb := bigramSet_card_lt b
    rw [bigramSet_card] at ha hb
    have := Float64.round_natCast ((bigrams a).len + (bigrams b).len) (by omega)
    simpa [Float64.ofInt] using this

/-- C19: whatever the order in which the entries of `bigrams a` are visited, the loop of
`diceCoefficient` ends with the same value of `intersection` and the function returns the
same coefficient: two runs over two enumerations of the map agree, and agree with
`diceCoefficient`. -/
theorem diceCoefficient_order_independent (a b : GoString)
    (order₁ order₂ : List (bigram × Bool))
    (h₁ : order₁.Perm (bigrams a).entries) (h₂ : order₂.Perm (bigrams a).entries) :
    intersectionLoop (bigrams b) order₁ (Float64.fin 0) =
        intersectionLoop (bigrams b) order₂ (Float64.fin 0) ∧
      diceCoefficientOrder order₁ a b = diceCoefficientOrder order₂ a b ∧
      diceCoefficientOrder order₁ a b = diceCoefficient a b := by
  have ha := bigramSet_card_lt a
  rw [bigramSet_card] at ha
  have key : ∀ order : List (bigram × Bool), order.Perm (bigrams a).entries →
      intersectionLoop (bigrams b) order (Float64.fin 0) =
        intersectionLoop (bigrams b) (bigrams a).entries (Float64.fin 0) := by
    intro order h
    have hlen : order.length = (bigrams a).len := h.length_eq
    have e1 := intersectionLoop_count (bigrams b) order 0 (by omega)
    have e2 := intersectionLoop_count (bigrams b) (bigrams a).entries 0
      (by simp only [GoMap.len] at ha; omega)
    simp only [Nat.cast_zero] at e1 e2
    rw [e1, e2, (h.filter _).length_eq]
  have k₁ := key order₁ h₁
  have k₂ := key order₂ h₂
  refine ⟨by rw [k₁, k₂], ?_, ?_⟩
  · simp only [diceCoefficientOrder, k₁, k₂]
  · simp only [diceCoefficientOrder, diceCoefficient, k₁]

theorem diceCoefficient_order_independent_witness :
    (bigrams strAAB).entries.reverse.Perm (bigrams strAAB).entries ∧
      (bigrams strAAB).entries.reverse ≠ (bigrams strAAB).entries ∧
      diceCoefficientOrder (bigrams strAAB).entries.reverse strAAB strAB =
        diceCoefficient strAAB strAB :=
  ⟨List.reverse_perm _, by decide,
    (diceCoefficient_order_independent strAAB strAB (bigrams strAAB).entries.reverse
      (bigrams strAAB).entries (List.reverse_perm _) (List.Perm.refl _)).2.2⟩


end Licenser
